import Mathlib

/-!
Verification of the field-level PII encryption subsystem of the ZomiSaas
backend (`backend/app/services/encryption_service.py`) and its integration
with the audit pipeline (`backend/app/services/audit_service.py`).

The Python code is shallowly embedded: strings are `List Char` (one entry per
Unicode code point, as in Python), byte strings are `List Nat` with every
entry `< 256`, dictionaries are ordered association lists, and fallible
operations return `Option`/`Except`.  The external libraries the service
calls are modelled faithfully at their interfaces:

* `base64.b64encode`/`b64decode` are implemented exactly (RFC 4648 alphabet,
  `=` padding, four characters per three bytes); the lenient `b64decode`
  discards characters outside the alphabet before strict decoding.
* `cryptography.fernet.Fernet` is modelled by a deterministic authenticated
  token scheme `fernetEncrypt`/`fernetDecrypt`: a version byte, a 32-byte
  key-and-message-dependent tag, and the message; decryption checks the
  version byte and the tag and fails otherwise, like `InvalidToken`.
* `str.encode('utf-8')`/`bytes.decode('utf-8')` are modelled by an injective
  three-bytes-per-code-point codec `strBytes`/`bytesStr`; `bytesStr` rejects
  ill-formed input (wrong length, out-of-range or surrogate code points),
  like `UnicodeDecodeError`.
* `json.dumps(..., ensure_ascii=False)`/`json.loads` are implemented over an
  inductive `Json` type (objects keep Python's insertion order; numbers are
  integers, which is the fragment the audit payloads use).

The Python regular-expression test `re.match(r'[base64 class]+=*$', s)` is
reproduced in `pyRegexB64`, including the CPython rule that `$` also matches
just before one trailing newline.
-/

namespace ZomiSaas

/-! ### Base64 (model of `base64.b64encode` / `base64.b64decode`) -/

/-- Characters of the standard base64 alphabet `A-Z a-z 0-9 + /`
(the character class of `_looks_like_base64`'s regular expression,
without the `=` padding). -/
def isB64Alpha (c : Char) : Bool :=
  ('A' ≤ c && c ≤ 'Z') || ('a' ≤ c && c ≤ 'z') || ('0' ≤ c && c ≤ '9') ||
    c = '+' || c = '/'

/-- The base64 digit for a 6-bit value. -/
def b64Char (n : Nat) : Char :=
  if n < 26 then Char.ofNat (65 + n)
  else if n < 52 then Char.ofNat (97 + (n - 26))
  else if n < 62 then Char.ofNat (48 + (n - 52))
  else if n = 62 then '+'
  else '/'

/-- Inverse of `b64Char` on the alphabet; `none` off it. -/
def b64CharVal (c : Char) : Option Nat :=
  if 'A' ≤ c && c ≤ 'Z' then some (c.toNat - 65)
  else if 'a' ≤ c && c ≤ 'z' then some (c.toNat - 97 + 26)
  else if '0' ≤ c && c ≤ '9' then some (c.toNat - 48 + 52)
  else if c = '+' then some 62
  else if c = '/' then some 63
  else none

/-- `base64.b64encode`: three bytes to four characters, `=`-padded. -/
def b64encode : List Nat → List Char
  | [] => []
  | [a] => [b64Char (a / 4), b64Char (a % 4 * 16), '=', '=']
  | [a, b] => [b64Char (a / 4), b64Char (a % 4 * 16 + b / 16), b64Char (b % 16 * 4), '=']
  | a :: b :: c :: rest =>
      b64Char (a / 4) :: b64Char (a % 4 * 16 + b / 16) ::
        b64Char (b % 16 * 4 + c / 64) :: b64Char (c % 64) :: b64encode rest

/-- Strict base64 decoding: groups of four characters, `=` padding only at
the very end.  (The lenient prefiltering of `base64.b64decode` is layered on
top in `pyB64decode`.) -/
def b64decodeStrict : List Char → Option (List Nat)
  | [] => some []
  | c1 :: c2 :: c3 :: c4 :: rest =>
      match b64CharVal c1, b64CharVal c2 with
      | some v1, some v2 =>
          if c3 = '=' then
            if c4 = '=' ∧ rest = [] then some [v1 * 4 + v2 / 16] else none
          else
            match b64CharVal c3 with
            | some v3 =>
                if c4 = '=' then
                  if rest = [] then some [v1 * 4 + v2 / 16, v2 % 16 * 16 + v3 / 4] else none
                else
                  match b64CharVal c4, b64decodeStrict rest with
                  | some v4, some ds =>
                      some ((v1 * 4 + v2 / 16) :: (v2 % 16 * 16 + v3 / 4) ::
                        (v3 % 4 * 64 + v4) :: ds)
                  | _, _ => none
            | none => none
      | _, _ => none
  | _ => none

theorem b64CharVal_b64Char (n : Nat) (h : n < 64) : b64CharVal (b64Char n) = some n := by
  revert h
  revert n
  decide

theorem isB64Alpha_b64Char (n : Nat) : isB64Alpha (b64Char n) = true := by
  by_cases h : n < 64
  · revert h
    revert n
    decide
  · have h26 : ¬ n < 26 := by omega
    have h52 : ¬ n < 52 := by omega
    have h62 : ¬ n < 62 := by omega
    have hne : ¬ n = 62 := by omega
    simp only [b64Char, h26, h52, h62, hne, if_false]
    decide

theorem b64Char_ne_pad (n : Nat) : b64Char n ≠ '=' := by
  intro h
  have := isB64Alpha_b64Char n
  rw [h] at this
  exact absurd this (by decide)

theorem b64decode_b64encode : ∀ bs : List Nat, (∀ b ∈ bs, b < 256) →
    b64decodeStrict (b64encode bs) = some bs
  | [], _ => rfl
  | [a], h => by
      have ha : a < 256 := h a (by simp)
      rw [show b64encode [a] = [b64Char (a / 4), b64Char (a % 4 * 16), '=', '='] from rfl]
      rw [show ∀ x y, b64decodeStrict [x, y, '=', '='] =
            (match b64CharVal x, b64CharVal y with
             | some v1, some v2 => some [v1 * 4 + v2 / 16]
             | _, _ => none) from fun x y => rfl]
      rw [b64CharVal_b64Char _ (by omega), b64CharVal_b64Char _ (by omega)]
      simp only [Option.some.injEq, List.cons.injEq, and_true]
      omega
  | [a, b], h => by
      have ha : a < 256 := h a (by simp)
      have hb : b < 256 := h b (by simp)
      rw [show b64encode [a, b] =
            [b64Char (a / 4), b64Char (a % 4 * 16 + b / 16), b64Char (b % 16 * 4), '='] from rfl]
      have h3 : b64Char (b % 16 * 4) ≠ '=' := b64Char_ne_pad _
      simp only [b64decodeStrict, b64CharVal_b64Char _ (show a / 4 < 64 by omega),
        b64CharVal_b64Char _ (show a % 4 * 16 + b / 16 < 64 by omega),
        b64CharVal_b64Char _ (show b % 16 * 4 < 64 by omega), h3, if_false, if_pos rfl,
        if_true, Option.some.injEq, List.cons.injEq, and_true]
      constructor
      · omega
      · omega
  | a :: b :: c :: rest, h => by
      have ha : a < 256 := h a (by simp)
      have hb : b < 256 := h b (by simp)
      have hc : c < 256 := h c (by simp)
      have hrest : ∀ x ∈ rest, x < 256 := by
        intro x hx
        exact h x (by simp [hx])
      have ih := b64decode_b64encode rest hrest
      rw [show b64encode (a :: b :: c :: rest) =
            b64Char (a / 4) :: b64Char (a % 4 * 16 + b / 16) ::
              b64Char (b % 16 * 4 + c / 64) :: b64Char (c % 64) ::
                b64encode rest from rfl]
      have h3 : b64Char (b % 16 * 4 + c / 64) ≠ '=' := b64Char_ne_pad _
      have h4 : b64Char (c % 64) ≠ '=' := b64Char_ne_pad _
      simp only [b64decodeStrict, b64CharVal_b64Char _ (show a / 4 < 64 by omega),
        b64CharVal_b64Char _ (show a % 4 * 16 + b / 16 < 64 by omega),
        b64CharVal_b64Char _ (show b % 16 * 4 + c / 64 < 64 by omega),
        b64CharVal_b64Char _ (show c % 64 < 64 by omega), h3, h4, if_false, ih,
        Option.some.injEq, List.cons.injEq]
      exact ⟨by omega, by omega, by omega, trivial⟩

theorem b64encode_length : ∀ bs : List Nat,
    (b64encode bs).length = 4 * ((bs.length + 2) / 3)
  | [] => rfl
  | [_] => by simp [b64encode]
  | [_, _] => by simp [b64encode]
  | a :: b :: c :: rest => by
      rw [show b64encode (a :: b :: c :: rest) =
            b64Char (a / 4) :: b64Char (a % 4 * 16 + b / 16) ::
              b64Char (b % 16 * 4 + c / 64) :: b64Char (c % 64) ::
                b64encode rest from rfl]
      simp only [List.length_cons, b64encode_length rest]
      omega

theorem b64encode_shape : ∀ bs : List Nat, ∃ t k,
    b64encode bs = t ++ List.replicate k '=' ∧ t.all isB64Alpha = true ∧
      (bs = [] ∨ t ≠ [])
  | [] => ⟨[], 0, rfl, rfl, Or.inl rfl⟩
  | [a] => by
      refine ⟨[b64Char (a / 4), b64Char (a % 4 * 16)], 2, rfl, ?_, Or.inr (by simp)⟩
      simp [isB64Alpha_b64Char]
  | [a, b] => by
      refine ⟨[b64Char (a / 4), b64Char (a % 4 * 16 + b / 16), b64Char (b % 16 * 4)], 1,
        rfl, ?_, Or.inr (by simp)⟩
      simp [isB64Alpha_b64Char]
  | a :: b :: c :: rest => by
      obtain ⟨t, k, heq, hall, _⟩ := b64encode_shape rest
      refine ⟨b64Char (a / 4) :: b64Char (a % 4 * 16 + b / 16) ::
        b64Char (b % 16 * 4 + c / 64) :: b64Char (c % 64) :: t, k, ?_, ?_, Or.inr (by simp)⟩
      · rw [show b64encode (a :: b :: c :: rest) =
              b64Char (a / 4) :: b64Char (a % 4 * 16 + b / 16) ::
                b64Char (b % 16 * 4 + c / 64) :: b64Char (c % 64) ::
                  b64encode rest from rfl, heq]
        simp
      · simp [isB64Alpha_b64Char, List.all_eq_true] at hall ⊢
        exact hall

/-! ### The ciphertext-shape regular expression of `_looks_like_base64` -/

/-- One step of the anchored match for the pattern body
`[A-Za-z0-9+/]+=*`: a non-empty run of alphabet characters followed by
nothing but `=`. -/
def matchesB64Core (s : List Char) : Bool :=
  !(s.takeWhile isB64Alpha).isEmpty &&
    (s.drop (s.takeWhile isB64Alpha).length).all (fun c => c = '=')

/-- Python `re.match` with an `$`-anchored pattern: `$` matches at the end of
the string or just before a single trailing newline. -/
def pyRegexB64 (s : List Char) : Bool :=
  matchesB64Core s ||
    (match s.getLast? with
     | some c => if c = '\n' then matchesB64Core s.dropLast else false
     | none => false)

/-- `EncryptionService._looks_like_base64`: the regular-expression shape test
together with the `len(s) > 40` threshold. -/
def looksLikeBase64 (s : List Char) : Bool :=
  pyRegexB64 s && decide (s.length > 40)

theorem takeWhile_append_all {P : Char → Bool} : ∀ t r : List Char, t.all P = true →
    (∀ c, r.head? = some c → P c = false) → (t ++ r).takeWhile P = t
  | [], r, _, hr => by
      cases r with
      | nil => rfl
      | cons c r' => simp [List.takeWhile_cons, hr c rfl]
  | c :: t', r, ht, hr => by
      simp only [List.all_cons, Bool.and_eq_true] at ht
      simp [List.takeWhile_cons, ht.1, takeWhile_append_all t' r ht.2 hr]

theorem matchesB64Core_shape (t : List Char) (k : Nat) (ht : t.all isB64Alpha = true)
    (hne : t ≠ []) : matchesB64Core (t ++ List.replicate k '=') = true := by
  have hhead : ∀ c, (List.replicate k '=').head? = some c → isB64Alpha c = false := by
    intro c hc
    cases k with
    | zero => simp at hc
    | succ k' =>
        simp only [List.replicate, List.head?_cons, Option.some.injEq] at hc
        rw [← hc]
        decide
  have htw : (t ++ List.replicate k '=').takeWhile isB64Alpha = t :=
    takeWhile_append_all t _ ht hhead
  simp only [matchesB64Core, htw, List.drop_left, Bool.and_eq_true, Bool.not_eq_true']
  constructor
  · simp [List.isEmpty_iff, hne]
  · simp only [List.all_eq_true, List.mem_replicate, decide_eq_true_eq]
    intro a ha
    exact ha.2

theorem pyRegexB64_b64encode (bs : List Nat) (hne : bs ≠ []) :
    pyRegexB64 (b64encode bs) = true := by
  obtain ⟨t, k, heq, hall, hor⟩ := b64encode_shape bs
  have htne : t ≠ [] := by
    rcases hor with h | h
    · exact absurd h hne
    · exact h
  simp [pyRegexB64, heq, matchesB64Core_shape t k hall htne]

/-- `base64.b64decode` in its default lenient mode: characters outside the
alphabet and the padding are discarded, then the groups of four are decoded;
any remaining malformation raises (`none`). -/
def pyB64decode (s : List Char) : Option (List Nat) :=
  b64decodeStrict (s.filter (fun c => isB64Alpha c || decide (c = '=')))

theorem filter_b64encode (bs : List Nat) :
    (b64encode bs).filter (fun c => isB64Alpha c || decide (c = '=')) = b64encode bs := by
  obtain ⟨t, k, heq, hall, _⟩ := b64encode_shape bs
  rw [heq]
  apply List.filter_eq_self.mpr
  intro a ha
  rcases List.mem_append.mp ha with h | h
  · simp only [List.all_eq_true] at hall
    simp [hall a h]
  · simp [List.eq_of_mem_replicate h]

theorem pyB64decode_b64encode (bs : List Nat) (h : ∀ b ∈ bs, b < 256) :
    pyB64decode (b64encode bs) = some bs := by
  rw [pyB64decode, filter_b64encode, b64decode_b64encode bs h]

/-! ### Model of `str.encode('utf-8')` / `bytes.decode('utf-8')`

An injective code-point codec standing in for the UTF-8 library routines:
three bytes per code point.  `bytesStr` fails (`UnicodeDecodeError`) on
inputs whose length is not a multiple of three or that would decode to an
out-of-range or surrogate code point. -/

def strBytes : List Char → List Nat
  | [] => []
  | c :: cs => c.toNat / 65536 :: c.toNat / 256 % 256 :: c.toNat % 256 :: strBytes cs

def bytesStr : List Nat → Option (List Char)
  | [] => some []
  | b1 :: b2 :: b3 :: rest =>
      if b1 * 65536 + b2 * 256 + b3 < 1114112 ∧
          ¬(55296 ≤ b1 * 65536 + b2 * 256 + b3 ∧ b1 * 65536 + b2 * 256 + b3 < 57344) then
        match bytesStr rest with
        | some cs => some (Char.ofNat (b1 * 65536 + b2 * 256 + b3) :: cs)
        | none => none
      else none
  | _ => none

theorem char_toNat_valid (c : Char) :
    c.toNat < 1114112 ∧ ¬(55296 ≤ c.toNat ∧ c.toNat < 57344) := by
  have h := c.valid
  rcases h with h | h
  · have : c.toNat < 55296 := h
    omega
  · have h1 : 57344 ≤ c.toNat := h.1
    have h2 : c.toNat < 1114112 := h.2
    omega

theorem bytesStr_strBytes : ∀ s : List Char, bytesStr (strBytes s) = some s
  | [] => rfl
  | c :: cs => by
      have hv := char_toNat_valid c
      have hrec : c.toNat / 65536 * 65536 + c.toNat / 256 % 256 * 256 + c.toNat % 256
          = c.toNat := by omega
      rw [show strBytes (c :: cs) =
            c.toNat / 65536 :: c.toNat / 256 % 256 :: c.toNat % 256 :: strBytes cs from rfl]
      rw [show ∀ b1 b2 b3 r, bytesStr (b1 :: b2 :: b3 :: r) =
            (if b1 * 65536 + b2 * 256 + b3 < 1114112 ∧
                ¬(55296 ≤ b1 * 65536 + b2 * 256 + b3 ∧ b1 * 65536 + b2 * 256 + b3 < 57344) then
              match bytesStr r with
              | some cs => some (Char.ofNat (b1 * 65536 + b2 * 256 + b3) :: cs)
              | none => none
            else none) from fun _ _ _ _ => rfl]
      rw [hrec]
      rw [if_pos hv, bytesStr_strBytes cs, Char.ofNat_toNat]

theorem strBytes_lt256 (s : List Char) : ∀ b ∈ strBytes s, b < 256 := by
  induction s with
  | nil => simp [strBytes]
  | cons c cs ih =>
      intro b hb
      have hv := char_toNat_valid c
      simp only [strBytes, List.mem_cons] at hb
      rcases hb with h | h | h | h
      · omega
      · omega
      · omega
      · exact ih b h

theorem strBytes_length (s : List Char) : (strBytes s).length = 3 * s.length := by
  induction s with
  | nil => rfl
  | cons c cs ih => simp [strBytes, ih]; omega

/-! ### Model of `cryptography.fernet.Fernet`

A deterministic authenticated-token scheme at the library's interface: a
token is a version byte, a 32-byte tag depending on the key and message, and
the message bytes.  `fernetDecrypt` succeeds exactly on well-formed tokens
whose tag matches the key (`InvalidToken` otherwise). -/

def toyMac (key : Nat) (msg : List Nat) : List Nat :=
  (List.range 32).map (fun i =>
    (msg.foldl (fun a b => (a * 131 + b + 7) % 65521) (key % 65521) + i * (key % 97) + i * i)
      % 256)

def fernetEncrypt (key : Nat) (msg : List Nat) : List Nat :=
  128 :: (toyMac key msg ++ msg)

def fernetDecrypt (key : Nat) (tok : List Nat) : Option (List Nat) :=
  match tok with
  | [] => none
  | v :: rest =>
      if v = 128 ∧ 32 ≤ rest.length then
        if rest.take 32 = toyMac key (rest.drop 32) then some (rest.drop 32) else none
      else none

theorem toyMac_length (key : Nat) (msg : List Nat) : (toyMac key msg).length = 32 := by
  simp [toyMac]

theorem toyMac_lt256 (key : Nat) (msg : List Nat) : ∀ b ∈ toyMac key msg, b < 256 := by
  intro b hb
  simp only [toyMac, List.mem_map] at hb
  obtain ⟨i, _, hi⟩ := hb
  omega

theorem fernetDecrypt_fernetEncrypt (key : Nat) (msg : List Nat) :
    fernetDecrypt key (fernetEncrypt key msg) = some msg := by
  have hlen : (toyMac key msg).length = 32 := toyMac_length key msg
  have htake : (toyMac key msg ++ msg).take 32 = toyMac key msg := by
    rw [← hlen]
    exact List.take_left _ _
  have hdrop : (toyMac key msg ++ msg).drop 32 = msg := by
    rw [← hlen]
    exact List.drop_left _ _
  rw [fernetEncrypt, fernetDecrypt]
  rw [if_pos ⟨rfl, by rw [List.length_append, hlen]; omega⟩, htake, hdrop, if_pos rfl]

theorem fernetEncrypt_lt256 (key : Nat) (msg : List Nat) (h : ∀ b ∈ msg, b < 256) :
    ∀ b ∈ fernetEncrypt key msg, b < 256 := by
  intro b hb
  simp only [fernetEncrypt, List.mem_cons, List.mem_append] at hb
  rcases hb with h1 | h1 | h1
  · omega
  · exact toyMac_lt256 key msg b h1
  · exact h b h1

theorem fernetEncrypt_length (key : Nat) (msg : List Nat) :
    (fernetEncrypt key msg).length = 33 + msg.length := by
  simp [fernetEncrypt, toyMac_length]
  omega

/-! ### Decimal rendering (Python `str` on integers) -/

def natStrAux : Nat → Nat → List Char
  | 0, _ => []
  | fuel + 1, n =>
      if n < 10 then [Char.ofNat (48 + n)]
      else natStrAux fuel (n / 10) ++ [Char.ofNat (48 + n % 10)]

/-- Decimal digit characters of a natural number, as `str` renders it. -/
def natStr (n : Nat) : List Char := natStrAux (n + 1) n

/-- Python `str` on an `int`: optional minus sign, then decimal digits. -/
def intStr (n : Int) : List Char :=
  if n < 0 then '-' :: natStr n.natAbs else natStr n.natAbs

theorem digit_char_spec : ∀ m < 10, (Char.ofNat (48 + m)).toNat = 48 + m ∧
    (Char.ofNat (48 + m)).isDigit = true ∧ isB64Alpha (Char.ofNat (48 + m)) = true := by
  decide

theorem natStrAux_ne_nil : ∀ fuel n, n ≤ fuel → natStrAux (fuel + 1) n ≠ []
  | fuel, n, _ => by
      rw [natStrAux]
      by_cases h : n < 10
      · simp [h]
      · simp [h]

theorem natStrAux_digits : ∀ fuel n, n ≤ fuel →
    (natStrAux (fuel + 1) n).all Char.isDigit = true := by
  intro fuel
  induction fuel with
  | zero =>
      intro n hn
      have : n = 0 := by omega
      subst this
      decide
  | succ f ih =>
      intro n hn
      rw [natStrAux]
      by_cases h : n < 10
      · simp only [if_pos h, List.all_cons, List.all_nil, Bool.and_true]
        exact (digit_char_spec n h).2.1
      · have h1 : n / 10 ≤ f := by omega
        have := ih (n / 10) h1
        simp only [if_neg h, List.all_append, Bool.and_eq_true]
        refine ⟨?_, ?_⟩
        · exact this
        · simp only [List.all_cons, List.all_nil, Bool.and_true]
          exact (digit_char_spec (n % 10) (by omega)).2.1

/-- Accumulate a digit list into a natural number, as the number parser does. -/
def digitsToNat (ds : List Char) : Nat :=
  ds.foldl (fun a c => a * 10 + (c.toNat - 48)) 0

theorem natStrAux_foldl : ∀ fuel n a, n ≤ fuel →
    (natStrAux (fuel + 1) n).foldl (fun acc c => acc * 10 + (c.toNat - 48)) a =
      a * 10 ^ (natStrAux (fuel + 1) n).length + n := by
  intro fuel
  induction fuel with
  | zero =>
      intro n a hn
      have : n = 0 := by omega
      subst this
      simp [natStrAux]
  | succ f ih =>
      intro n a hn
      rw [natStrAux]
      by_cases h : n < 10
      · simp only [if_pos h, List.foldl_cons, List.foldl_nil, List.length_cons,
          List.length_nil, pow_one, zero_add]
        have := (digit_char_spec n h).1
        omega
      · have h1 : n / 10 ≤ f := by omega
        simp only [if_neg h, List.foldl_append, List.foldl_cons, List.foldl_nil,
          List.length_append, List.length_cons, List.length_nil]
        rw [ih (n / 10) a h1]
        have hd := (digit_char_spec (n % 10) (by omega)).1
        have hpow : 10 ^ ((natStrAux (f + 1) (n / 10)).length + (0 + 1)) =
            10 ^ (natStrAux (f + 1) (n / 10)).length * 10 := by
          rw [pow_succ]
        rw [hpow]
        have hmul : (a * 10 ^ (natStrAux (f + 1) (n / 10)).length + n / 10) * 10 =
            a * (10 ^ (natStrAux (f + 1) (n / 10)).length * 10) + n / 10 * 10 := by
          ring
        omega

theorem digitsToNat_natStr (n : Nat) : digitsToNat (natStr n) = n := by
  have := natStrAux_foldl n n 0 (le_refl n)
  simpa [digitsToNat, natStr] using this

theorem natStr_ne_nil (n : Nat) : natStr n ≠ [] := natStrAux_ne_nil n n (le_refl n)

theorem natStr_digits (n : Nat) : (natStr n).all Char.isDigit = true :=
  natStrAux_digits n n (le_refl n)

/-! ### Python run-time values

The scalar universe the encryption service's dynamically typed arguments
range over: `None`, strings, integers, booleans. -/

inductive PyVal where
  | vnone
  | vstr (s : List Char)
  | vint (n : Int)
  | vbool (b : Bool)
deriving DecidableEq

/-- Python `str()` on a scalar value. -/
def pyStr : PyVal → List Char
  | .vnone => ['N', 'o', 'n', 'e']
  | .vstr s => s
  | .vint n => intStr n
  | .vbool true => ['T', 'r', 'u', 'e']
  | .vbool false => ['F', 'a', 'l', 's', 'e']

/-- Python truthiness on a scalar value. -/
def pyTruthy : PyVal → Bool
  | .vnone => false
  | .vstr s => !s.isEmpty
  | .vint n => decide (n ≠ 0)
  | .vbool b => b

/-- A Python `Optional[str]` result as a scalar value (`None` or the string). -/
def optVal : Option (List Char) → PyVal
  | some s => .vstr s
  | none => .vnone

/-! ### `EncryptionService.encrypt` / `EncryptionService.decrypt` -/

/-- The ciphertext text produced for a plaintext string: Fernet token of the
UTF-8 bytes, base64-encoded for storage. -/
def encTok (key : Nat) (s : List Char) : List Char :=
  b64encode (fernetEncrypt key (strBytes s))

/-- `EncryptionService.encrypt`: `None`/empty input returns `None`; any other
value is stringified and encrypted. -/
def encrypt (key : Nat) : PyVal → Option (List Char)
  | .vnone => none
  | .vstr s => if s = [] then none else some (encTok key s)
  | .vint n => some (encTok key (pyStr (.vint n)))
  | .vbool b => some (encTok key (pyStr (.vbool b)))

/-- The `try` block of `decrypt`: base64-decode, authenticate and decrypt,
decode the plaintext bytes; `none` is the raised-exception path. -/
def tryDecryptStr (key : Nat) (s : List Char) : Option (List Char) :=
  match pyB64decode s with
  | none => none
  | some bs =>
      match fernetDecrypt key bs with
      | none => none
      | some msg => bytesStr msg

/-- `EncryptionService.decrypt`: `None`/empty passes through as `None`;
non-strings are stringified; strings failing the length or shape gate are
returned unchanged; otherwise decryption is attempted and any failure is
caught, returning the input unchanged. -/
def decrypt (key : Nat) : PyVal → Option (List Char)
  | .vnone => none
  | .vstr s =>
      if s = [] then none
      else if s.length < 20 ∨ looksLikeBase64 s = false then some s
      else
        match tryDecryptStr key s with
        | some p => some p
        | none => some s
  | .vint n => some (pyStr (.vint n))
  | .vbool b => some (pyStr (.vbool b))

theorem encTok_length (key : Nat) (s : List Char) :
    (encTok key s).length = 44 + 4 * s.length := by
  rw [encTok, b64encode_length, fernetEncrypt_length, strBytes_length]
  omega

theorem looksLikeBase64_encTok (key : Nat) (s : List Char) :
    looksLikeBase64 (encTok key s) = true := by
  have hne : fernetEncrypt key (strBytes s) ≠ [] := by
    intro h
    have := fernetEncrypt_length key (strBytes s)
    rw [h] at this
    simp only [List.length_nil] at this
    omega
  rw [looksLikeBase64, encTok, pyRegexB64_b64encode _ hne, Bool.true_and,
    decide_eq_true_eq]
  have := encTok_length key s
  rw [encTok] at this
  omega

theorem tryDecryptStr_encTok (key : Nat) (s : List Char) :
    tryDecryptStr key (encTok key s) = some s := by
  simp only [tryDecryptStr, encTok,
    pyB64decode_b64encode _ (fernetEncrypt_lt256 key _ (strBytes_lt256 s)),
    fernetDecrypt_fernetEncrypt, bytesStr_strBytes]

theorem decrypt_encTok (key : Nat) (s : List Char) :
    decrypt key (.vstr (encTok key s)) = some s := by
  have hlen := encTok_length key s
  have hne : ¬ encTok key s = [] := by
    intro h
    rw [h] at hlen
    simp only [List.length_nil] at hlen
    omega
  have hgate : ¬ ((encTok key s).length < 20 ∨ looksLikeBase64 (encTok key s) = false) := by
    push_neg
    refine ⟨by omega, ?_⟩
    simp [looksLikeBase64_encTok key s]
  rw [decrypt]
  rw [if_neg hne, if_neg hgate, tryDecryptStr_encTok]

/-! ### JSON documents (model of `json.dumps(..., ensure_ascii=False)` and
`json.loads` on the integer fragment)

Objects are ordered key/value lists, as Python dictionaries are; `wf` states
the dictionary invariant (no duplicate keys, recursively). -/

inductive Json where
  | null
  | jbool (b : Bool)
  | jnum (n : Int)
  | jstr (s : List Char)
  | jarr (xs : List Json)
  | jobj (kvs : List (List Char × Json))

/-- Lowercase hexadecimal digit, as in `json.dumps` control-character
escapes. -/
def hexDigit (n : Nat) : Char :=
  if n < 10 then Char.ofNat (48 + n) else Char.ofNat (87 + n)

/-- `json.dumps` escaping of one character with `ensure_ascii=False`:
quote, backslash and named control escapes, `\u00XX` for other control
characters, everything else verbatim. -/
def escChar (c : Char) : List Char :=
  if c = '"' then ['\\', '"']
  else if c = '\\' then ['\\', '\\']
  else if c = Char.ofNat 8 then ['\\', 'b']
  else if c = Char.ofNat 9 then ['\\', 't']
  else if c = Char.ofNat 10 then ['\\', 'n']
  else if c = Char.ofNat 12 then ['\\', 'f']
  else if c = Char.ofNat 13 then ['\\', 'r']
  else if c.toNat < 32 then
    ['\\', 'u', '0', '0', hexDigit (c.toNat / 16), hexDigit (c.toNat % 16)]
  else [c]

def escStr (s : List Char) : List Char := s.flatMap escChar

mutual
/-- `json.dumps(..., ensure_ascii=False)` with the default separators
`', '` and `': '`, emitting object members in insertion order. -/
def dumps : Json → List Char
  | .null => ['n', 'u', 'l', 'l']
  | .jbool true => ['t', 'r', 'u', 'e']
  | .jbool false => ['f', 'a', 'l', 's', 'e']
  | .jnum n => intStr n
  | .jstr s => '"' :: (escStr s ++ ['"'])
  | .jarr [] => ['[', ']']
  | .jarr (x :: xs) => '[' :: (dumps x ++ (dumpsElemsTail xs ++ [']']))
  | .jobj [] => ['{', '}']
  | .jobj (kv :: kvs) => '{' :: (dumpsMember kv ++ (dumpsMembersTail kvs ++ ['}']))
def dumpsMember : List Char × Json → List Char
  | (k, v) => '"' :: (escStr k ++ ('"' :: ':' :: ' ' :: dumps v))
def dumpsElemsTail : List Json → List Char
  | [] => []
  | x :: xs => ',' :: ' ' :: (dumps x ++ dumpsElemsTail xs)
def dumpsMembersTail : List (List Char × Json) → List Char
  | [] => []
  | kv :: kvs => ',' :: ' ' :: (dumpsMember kv ++ dumpsMembersTail kvs)
end

/-- `k` does not occur among the keys of `kvs`. -/
def keyNotIn (k : List Char) (kvs : List (List Char × Json)) : Bool :=
  !(kvs.any (fun kv => decide (kv.1 = k)))

/-- Top-level keys are pairwise distinct (the Python dictionary invariant). -/
def nodupKeys : List (List Char × Json) → Bool
  | [] => true
  | kv :: kvs => keyNotIn kv.1 kvs && nodupKeys kvs

mutual
/-- Well-formedness of a document arising from a Python object: every
object's keys are distinct, recursively. -/
def wf : Json → Bool
  | .null => true
  | .jbool _ => true
  | .jnum _ => true
  | .jstr _ => true
  | .jarr xs => wfElems xs
  | .jobj kvs => nodupKeys kvs && wfMembers kvs
def wfElems : List Json → Bool
  | [] => true
  | x :: xs => wf x && wfElems xs
def wfMembers : List (List Char × Json) → Bool
  | [] => true
  | kv :: kvs => wf kv.2 && wfMembers kvs
end

/-! #### The parser (`json.loads`) -/

def isWsChar (c : Char) : Bool :=
  c = ' ' || c = Char.ofNat 9 || c = Char.ofNat 10 || c = Char.ofNat 13

def skipWs (s : List Char) : List Char := s.dropWhile isWsChar

def hexVal (c : Char) : Option Nat :=
  if '0' ≤ c && c ≤ '9' then some (c.toNat - 48)
  else if 'a' ≤ c && c ≤ 'f' then some (c.toNat - 87)
  else if 'A' ≤ c && c ≤ 'F' then some (c.toNat - 55)
  else none

/-- String contents after the opening quote (fuel-indexed): literal
characters, the named escapes, and `\uXXXX` (lone surrogates rejected); raw
control characters rejected, as `json.loads` does in strict mode. -/
def parseStringBodyF : Nat → List Char → Option (List Char × List Char)
  | 0, _ => none
  | fuel + 1, s =>
      match s with
      | [] => none
      | c :: rest =>
          if c = '"' then some ([], rest)
          else if c = '\\' then
            match rest with
            | [] => none
            | e :: rest2 =>
                if e = '"' then (parseStringBodyF fuel rest2).map (fun p => ('"' :: p.1, p.2))
                else if e = '\\' then
                  (parseStringBodyF fuel rest2).map (fun p => ('\\' :: p.1, p.2))
                else if e = '/' then
                  (parseStringBodyF fuel rest2).map (fun p => ('/' :: p.1, p.2))
                else if e = 'b' then
                  (parseStringBodyF fuel rest2).map (fun p => (Char.ofNat 8 :: p.1, p.2))
                else if e = 'f' then
                  (parseStringBodyF fuel rest2).map (fun p => (Char.ofNat 12 :: p.1, p.2))
                else if e = 'n' then
                  (parseStringBodyF fuel rest2).map (fun p => (Char.ofNat 10 :: p.1, p.2))
                else if e = 'r' then
                  (parseStringBodyF fuel rest2).map (fun p => (Char.ofNat 13 :: p.1, p.2))
                else if e = 't' then
                  (parseStringBodyF fuel rest2).map (fun p => (Char.ofNat 9 :: p.1, p.2))
                else if e = 'u' then
                  match rest2 with
                  | h1 :: h2 :: h3 :: h4 :: rest3 =>
                      match hexVal h1, hexVal h2, hexVal h3, hexVal h4 with
                      | some a, some b, some c3, some d =>
                          if 55296 ≤ a * 4096 + b * 256 + c3 * 16 + d ∧
                              a * 4096 + b * 256 + c3 * 16 + d < 57344 then none
                          else
                            (parseStringBodyF fuel rest3).map
                              (fun p =>
                                (Char.ofNat (a * 4096 + b * 256 + c3 * 16 + d) :: p.1, p.2))
                      | _, _, _, _ => none
                  | _ => none
                else none
          else if c.toNat < 32 then none
          else (parseStringBodyF fuel rest).map (fun p => (c :: p.1, p.2))

/-- String contents after the opening quote; one unit of fuel is consumed
per source character, so the input length bounds the recursion. -/
def parseStringBody (s : List Char) : Option (List Char × List Char) :=
  parseStringBodyF (s.length + 1) s

/-- The maximal digit prefix, accumulated to a natural number; fails on an
empty digit run. -/
def parseNatPart (s : List Char) : Option (Nat × List Char) :=
  if (s.takeWhile Char.isDigit).isEmpty then none
  else some (digitsToNat (s.takeWhile Char.isDigit), s.drop (s.takeWhile Char.isDigit).length)

/-- The integer fragment of JSON numbers: floats and exponents are outside
the model, so a following `.`, `e` or `E` fails the parse. -/
def numEndOk (s : List Char) : Bool :=
  match s with
  | [] => true
  | c :: _ => !(c = '.' || c = 'e' || c = 'E')

def parseNumber (s : List Char) : Option (Json × List Char) :=
  match s with
  | [] => none
  | c :: r =>
      if c = '-' then
        match parseNatPart r with
        | some (n, r2) => if numEndOk r2 then some (.jnum (-(n : Int)), r2) else none
        | none => none
      else
        match parseNatPart (c :: r) with
        | some (n, r2) => if numEndOk r2 then some (.jnum (n : Int), r2) else none
        | none => none

/-- Add a parsed member to an object under construction, with Python
dictionary semantics: an existing key keeps its position and is overwritten,
a fresh key is appended. -/
def insertField (acc : List (List Char × Json)) (k : List Char) (v : Json) :
    List (List Char × Json) :=
  if acc.any (fun kv => decide (kv.1 = k)) then
    acc.map (fun kv => if kv.1 = k then (k, v) else kv)
  else acc ++ [(k, v)]

/-- The tail of the literal `null` after its leading `n`. -/
def parseNull : List Char → Option (Json × List Char)
  | 'u' :: 'l' :: 'l' :: r2 => some (.null, r2)
  | _ => none

/-- The tail of the literal `true` after its leading `t`. -/
def parseTrue : List Char → Option (Json × List Char)
  | 'r' :: 'u' :: 'e' :: r2 => some (.jbool true, r2)
  | _ => none

/-- The tail of the literal `false` after its leading `f`. -/
def parseFalse : List Char → Option (Json × List Char)
  | 'a' :: 'l' :: 's' :: 'e' :: r2 => some (.jbool false, r2)
  | _ => none

mutual
/-- Recursive-descent JSON value parser (fuel-indexed for totality); expects
its input to start with no whitespace. -/
def parseVal : Nat → List Char → Option (Json × List Char)
  | 0, _ => none
  | fuel + 1, s =>
      match s with
      | [] => none
      | c :: r =>
          if c = 'n' then parseNull r
          else if c = 't' then parseTrue r
          else if c = 'f' then parseFalse r
          else if c = '"' then
            (parseStringBody r).map (fun p => (.jstr p.1, p.2))
          else if c = '[' then
            match skipWs r with
            | [] => none
            | c1 :: r1 =>
                if c1 = ']' then some (.jarr [], r1)
                else
                  match parseVal fuel (c1 :: r1) with
                  | some (x, r2) => parseElems fuel [x] (skipWs r2)
                  | none => none
          else if c = '{' then
            match skipWs r with
            | [] => none
            | c1 :: r1 =>
                if c1 = '}' then some (.jobj [], r1)
                else parseMember fuel [] (c1 :: r1)
          else parseNumber (c :: r)
/-- After one array element: a `,` continues, a `]` closes. -/
def parseElems : Nat → List Json → List Char → Option (Json × List Char)
  | 0, _, _ => none
  | fuel + 1, acc, s =>
      match s with
      | ']' :: r => some (.jarr acc, r)
      | ',' :: r =>
          match parseVal fuel (skipWs r) with
          | some (x, r2) => parseElems fuel (acc ++ [x]) (skipWs r2)
          | none => none
      | _ => none
/-- One `"key": value` member, then a `,` continues or a `}` closes. -/
def parseMember : Nat → List (List Char × Json) → List Char → Option (Json × List Char)
  | 0, _, _ => none
  | fuel + 1, acc, s =>
      match s with
      | '"' :: r =>
          match parseStringBody r with
          | some (k, r2) =>
              match skipWs r2 with
              | ':' :: r3 =>
                  match parseVal fuel (skipWs r3) with
                  | some (v, r4) =>
                      match skipWs r4 with
                      | ',' :: r5 => parseMember fuel (insertField acc k v) (skipWs r5)
                      | '}' :: r5 => some (.jobj (insertField acc k v), r5)
                      | _ => none
                  | none => none
              | _ => none
          | none => none
      | _ => none
end

/-- `json.loads`: parse one value surrounded by optional whitespace;
trailing data fails. -/
def loads (s : List Char) : Option Json :=
  match parseVal (s.length + 1) (skipWs s) with
  | some (v, rest) => if skipWs rest = [] then some v else none
  | none => none

/-! #### Round trip of the codec: `loads (dumps v) = some v` for well-formed
documents. -/

theorem char_ne_of_toNat {c d : Char} (h : c.toNat ≠ d.toNat) : c ≠ d := by
  intro he
  exact h (by rw [he])

theorem isDigit_bounds {c : Char} (h : c.isDigit = true) : 48 ≤ c.toNat ∧ c.toNat ≤ 57 := by
  simpa [Char.isDigit] using h

theorem skipWs_cons_not {c : Char} (t : List Char) (h : isWsChar c = false) :
    skipWs (c :: t) = c :: t := by
  simp [skipWs, List.dropWhile_cons, h]

theorem skipWs_space (t : List Char) : skipWs (' ' :: t) = skipWs t := by
  rw [skipWs, skipWs, List.dropWhile_cons, if_pos (by decide)]

/-- Tokens that may legitimately follow a complete value inside a dumps
image: nothing, a separator, or a close bracket. -/
def termRest : List Char → Bool
  | [] => true
  | c :: _ => c = ',' || c = ']' || c = '}'

theorem termRest_not_digit {s : List Char} (h : termRest s = true) :
    s.takeWhile Char.isDigit = [] ∧ numEndOk s = true := by
  cases s with
  | nil => exact ⟨rfl, rfl⟩
  | cons c t =>
      simp only [termRest, Bool.or_eq_true, decide_eq_true_eq] at h
      have hd : c.isDigit = false := by
        rcases h with (h | h) | h <;> subst h <;> decide
      constructor
      · simp [List.takeWhile_cons, hd]
      · simp only [numEndOk, Bool.not_eq_true']
        rcases h with (h | h) | h <;> subst h <;> decide

theorem termRest_head_not_digit {s : List Char} (h : termRest s = true) :
    ∀ c, s.head? = some c → Char.isDigit c = false := by
  intro c hc
  cases s with
  | nil => simp at hc
  | cons c0 t =>
      simp only [List.head?_cons, Option.some.injEq] at hc
      subst hc
      simp only [termRest, Bool.or_eq_true, decide_eq_true_eq] at h
      rcases h with (h | h) | h <;> subst h <;> decide

theorem parseNatPart_natStr (n : Nat) (rest : List Char) (hrest : termRest rest = true) :
    parseNatPart (natStr n ++ rest) = some (n, rest) := by
  have hall : (natStr n).all Char.isDigit = true := natStr_digits n
  have hne := natStr_ne_nil n
  have htw : (natStr n ++ rest).takeWhile Char.isDigit = natStr n :=
    takeWhile_append_all _ _ hall (termRest_head_not_digit hrest)
  rw [parseNatPart, htw]
  rw [if_neg (by simp [List.isEmpty_iff, hne])]
  rw [digitsToNat_natStr, List.drop_left]

theorem termRest_numEndOk {s : List Char} (h : termRest s = true) : numEndOk s = true := by
  cases s with
  | nil => rfl
  | cons c t =>
      simp only [termRest, Bool.or_eq_true, decide_eq_true_eq] at h
      simp only [numEndOk, Bool.not_eq_true']
      rcases h with (h | h) | h <;> subst h <;> decide

theorem parseNumber_intStr (n : Int) (rest : List Char) (hrest : termRest rest = true) :
    parseNumber (intStr n ++ rest) = some (.jnum n, rest) := by
  have hend := termRest_numEndOk hrest
  by_cases hn : n < 0
  · rw [intStr, if_pos hn]
    rw [show ('-' :: natStr n.natAbs) ++ rest = '-' :: (natStr n.natAbs ++ rest) from rfl]
    rw [parseNumber]
    rw [if_pos rfl, parseNatPart_natStr _ _ hrest]
    simp only [hend, if_true]
    have he : (-(n.natAbs : Int)) = n := by omega
    rw [he]
  · rw [intStr, if_neg hn]
    obtain ⟨c, t, hct⟩ := List.exists_cons_of_ne_nil (natStr_ne_nil n.natAbs)
    have hdig : c.isDigit = true := by
      have hall := natStr_digits n.natAbs
      rw [hct, List.all_cons, Bool.and_eq_true] at hall
      exact hall.1
    have hmin : ¬ c = '-' := by
      intro he
      rw [he] at hdig
      exact absurd hdig (by decide)
    rw [hct]
    rw [show (c :: t) ++ rest = c :: (t ++ rest) from rfl]
    rw [parseNumber]
    rw [if_neg hmin]
    rw [show c :: (t ++ rest) = (c :: t) ++ rest from rfl, ← hct]
    rw [parseNatPart_natStr _ _ hrest]
    simp only [hend, if_true]
    have he : ((n.natAbs : Int)) = n := by omega
    rw [he]

theorem hexVal_hexDigit : ∀ n < 16, hexVal (hexDigit n) = some n := by
  decide

theorem parseStringBodyF_escStr : ∀ (s : List Char) (fuel : Nat) (rest : List Char),
    s.length < fuel → parseStringBodyF fuel (escStr s ++ '"' :: rest) = some (s, rest)
  | [], fuel, rest, hf => by
      cases fuel with
      | zero => omega
      | succ f => rfl
  | c :: cs, fuel, rest, hf => by
      cases fuel with
      | zero => omega
      | succ f =>
      have ih := parseStringBodyF_escStr cs f rest (by simp at hf; omega)
      rw [show escStr (c :: cs) = escChar c ++ escStr cs from by simp [escStr]]
      rw [List.append_assoc]
      by_cases h1 : c = '"'
      · subst h1
        rw [show escChar '"' = ['\\', '"'] from rfl]
        rw [show (['\\', '"'] : List Char) ++ (escStr cs ++ '"' :: rest) =
              '\\' :: '"' :: (escStr cs ++ '"' :: rest) from rfl]
        rw [show ∀ L, parseStringBodyF (f + 1) ('\\' :: '"' :: L) =
              (parseStringBodyF f L).map (fun p => ('"' :: p.1, p.2)) from fun L => rfl]
        rw [ih]
        rfl
      by_cases h2 : c = '\\'
      · subst h2
        rw [show escChar '\\' = ['\\', '\\'] from rfl]
        rw [show (['\\', '\\'] : List Char) ++ (escStr cs ++ '"' :: rest) =
              '\\' :: '\\' :: (escStr cs ++ '"' :: rest) from rfl]
        rw [show ∀ L, parseStringBodyF (f + 1) ('\\' :: '\\' :: L) =
              (parseStringBodyF f L).map (fun p => ('\\' :: p.1, p.2)) from fun L => rfl]
        rw [ih]
        rfl
      by_cases h3 : c = Char.ofNat 8
      · subst h3
        rw [show escChar (Char.ofNat 8) = ['\\', 'b'] from rfl]
        rw [show (['\\', 'b'] : List Char) ++ (escStr cs ++ '"' :: rest) =
              '\\' :: 'b' :: (escStr cs ++ '"' :: rest) from rfl]
        rw [show ∀ L, parseStringBodyF (f + 1) ('\\' :: 'b' :: L) =
              (parseStringBodyF f L).map (fun p => (Char.ofNat 8 :: p.1, p.2)) from fun L => rfl]
        rw [ih]
        rfl
      by_cases h4 : c = Char.ofNat 9
      · subst h4
        rw [show escChar (Char.ofNat 9) = ['\\', 't'] from rfl]
        rw [show (['\\', 't'] : List Char) ++ (escStr cs ++ '"' :: rest) =
              '\\' :: 't' :: (escStr cs ++ '"' :: rest) from rfl]
        rw [show ∀ L, parseStringBodyF (f + 1) ('\\' :: 't' :: L) =
              (parseStringBodyF f L).map (fun p => (Char.ofNat 9 :: p.1, p.2)) from fun L => rfl]
        rw [ih]
        rfl
      by_cases h5 : c = Char.ofNat 10
      · subst h5
        rw [show escChar (Char.ofNat 10) = ['\\', 'n'] from rfl]
        rw [show (['\\', 'n'] : List Char) ++ (escStr cs ++ '"' :: rest) =
              '\\' :: 'n' :: (escStr cs ++ '"' :: rest) from rfl]
        rw [show ∀ L, parseStringBodyF (f + 1) ('\\' :: 'n' :: L) =
              (parseStringBodyF f L).map (fun p => (Char.ofNat 10 :: p.1, p.2)) from fun L => rfl]
        rw [ih]
        rfl
      by_cases h6 : c = Char.ofNat 12
      · subst h6
        rw [show escChar (Char.ofNat 12) = ['\\', 'f'] from rfl]
        rw [show (['\\', 'f'] : List Char) ++ (escStr cs ++ '"' :: rest) =
              '\\' :: 'f' :: (escStr cs ++ '"' :: rest) from rfl]
        rw [show ∀ L, parseStringBodyF (f + 1) ('\\' :: 'f' :: L) =
              (parseStringBodyF f L).map (fun p => (Char.ofNat 12 :: p.1, p.2)) from fun L => rfl]
        rw [ih]
        rfl
      by_cases h7 : c = Char.ofNat 13
      · subst h7
        rw [show escChar (Char.ofNat 13) = ['\\', 'r'] from rfl]
        rw [show (['\\', 'r'] : List Char) ++ (escStr cs ++ '"' :: rest) =
              '\\' :: 'r' :: (escStr cs ++ '"' :: rest) from rfl]
        rw [show ∀ L, parseStringBodyF (f + 1) ('\\' :: 'r' :: L) =
              (parseStringBodyF f L).map (fun p => (Char.ofNat 13 :: p.1, p.2)) from fun L => rfl]
        rw [ih]
        rfl
      by_cases h8 : c.toNat < 32
      · rw [show escChar c = ['\\', 'u', '0', '0', hexDigit (c.toNat / 16),
              hexDigit (c.toNat % 16)] from by
            rw [escChar, if_neg h1, if_neg h2, if_neg h3, if_neg h4, if_neg h5, if_neg h6,
              if_neg h7, if_pos h8]]
        rw [show (['\\', 'u', '0', '0', hexDigit (c.toNat / 16), hexDigit (c.toNat % 16)] :
              List Char) ++ (escStr cs ++ '"' :: rest) =
              '\\' :: 'u' :: '0' :: '0' :: hexDigit (c.toNat / 16) ::
                hexDigit (c.toNat % 16) :: (escStr cs ++ '"' :: rest) from rfl]
        rw [show ∀ d1 d2 L, parseStringBodyF (f + 1) ('\\' :: 'u' :: '0' :: '0' :: d1 :: d2 :: L) =
              (match hexVal '0', hexVal '0', hexVal d1, hexVal d2 with
               | some a, some b, some c3, some d =>
                   if 55296 ≤ a * 4096 + b * 256 + c3 * 16 + d ∧
                       a * 4096 + b * 256 + c3 * 16 + d < 57344 then none
                   else
                     (parseStringBodyF f L).map
                       (fun p => (Char.ofNat (a * 4096 + b * 256 + c3 * 16 + d) :: p.1, p.2))
               | _, _, _, _ => none) from fun d1 d2 L => rfl]
        rw [show hexVal '0' = some 0 from rfl]
        rw [hexVal_hexDigit (c.toNat / 16) (by omega), hexVal_hexDigit (c.toNat % 16) (by omega)]
        have hval : 0 * 4096 + 0 * 256 + c.toNat / 16 * 16 + c.toNat % 16 = c.toNat := by
          omega
        rw [show (match some 0, some 0, some (c.toNat / 16), some (c.toNat % 16) with
               | some a, some b, some c3, some d =>
                   if 55296 ≤ a * 4096 + b * 256 + c3 * 16 + d ∧
                       a * 4096 + b * 256 + c3 * 16 + d < 57344 then none
                   else
                     (parseStringBodyF f (escStr cs ++ '"' :: rest)).map
                       (fun p => (Char.ofNat (a * 4096 + b * 256 + c3 * 16 + d) :: p.1, p.2))
               | _, _, _, _ =>
                   (none : Option (List Char × List Char))) =
              (if 55296 ≤ 0 * 4096 + 0 * 256 + c.toNat / 16 * 16 + c.toNat % 16 ∧
                   0 * 4096 + 0 * 256 + c.toNat / 16 * 16 + c.toNat % 16 < 57344 then none
               else
                 (parseStringBodyF f (escStr cs ++ '"' :: rest)).map
                   (fun p => (Char.ofNat (0 * 4096 + 0 * 256 + c.toNat / 16 * 16 +
                     c.toNat % 16) :: p.1, p.2))) from rfl]
        rw [hval]
        rw [if_neg (by omega)]
        rw [ih]
        simp [Char.ofNat_toNat]
      · rw [show escChar c = [c] from by
            rw [escChar, if_neg h1, if_neg h2, if_neg h3, if_neg h4, if_neg h5, if_neg h6,
              if_neg h7, if_neg h8]]
        rw [show ([c] : List Char) ++ (escStr cs ++ '"' :: rest) =
              c :: (escStr cs ++ '"' :: rest) from rfl]
        rw [show parseStringBodyF (f + 1) (c :: (escStr cs ++ '"' :: rest)) =
              (if c = '"' then some ([], escStr cs ++ '"' :: rest)
               else if c = '\\' then
                 (match escStr cs ++ '"' :: rest with
                  | [] => none
                  | e :: rest2 =>
                      if e = '"' then
                        (parseStringBodyF f rest2).map (fun p => ('"' :: p.1, p.2))
                      else if e = '\\' then
                        (parseStringBodyF f rest2).map (fun p => ('\\' :: p.1, p.2))
                      else if e = '/' then
                        (parseStringBodyF f rest2).map (fun p => ('/' :: p.1, p.2))
                      else if e = 'b' then
                        (parseStringBodyF f rest2).map (fun p => (Char.ofNat 8 :: p.1, p.2))
                      else if e = 'f' then
                        (parseStringBodyF f rest2).map (fun p => (Char.ofNat 12 :: p.1, p.2))
                      else if e = 'n' then
                        (parseStringBodyF f rest2).map (fun p => (Char.ofNat 10 :: p.1, p.2))
                      else if e = 'r' then
                        (parseStringBodyF f rest2).map (fun p => (Char.ofNat 13 :: p.1, p.2))
                      else if e = 't' then
                        (parseStringBodyF f rest2).map (fun p => (Char.ofNat 9 :: p.1, p.2))
                      else if e = 'u' then
                        match rest2 with
                        | h1 :: h2 :: h3 :: h4 :: rest3 =>
                            match hexVal h1, hexVal h2, hexVal h3, hexVal h4 with
                            | some a, some b, some c3, some d =>
                                if 55296 ≤ a * 4096 + b * 256 + c3 * 16 + d ∧
                                    a * 4096 + b * 256 + c3 * 16 + d < 57344 then none
                                else
                                  (parseStringBodyF f rest3).map
                                    (fun p =>
                                      (Char.ofNat (a * 4096 + b * 256 + c3 * 16 + d) ::
                                        p.1, p.2))
                            | _, _, _, _ => none
                        | _ => none
                      else none)
               else if c.toNat < 32 then none
               else (parseStringBodyF f (escStr cs ++ '"' :: rest)).map
                 (fun p => (c :: p.1, p.2))) from rfl]
        rw [if_neg h1, if_neg h2, if_neg (by omega : ¬ c.toNat < 32)]
        rw [ih]
        rfl

theorem escChar_length_pos (c : Char) : 1 ≤ (escChar c).length := by
  rw [escChar]
  repeat' split
  all_goals simp

theorem escStr_length_ge (s : List Char) : s.length ≤ (escStr s).length := by
  induction s with
  | nil => simp [escStr]
  | cons c cs ih =>
      have := escChar_length_pos c
      simp only [escStr, List.flatMap_cons, List.length_append, List.length_cons] at ih ⊢
      omega

theorem parseStringBody_escStr (s rest : List Char) :
    parseStringBody (escStr s ++ '"' :: rest) = some (s, rest) := by
  rw [parseStringBody]
  apply parseStringBodyF_escStr
  have := escStr_length_ge s
  simp only [List.length_append, List.length_cons]
  omega

theorem natStrAux_head : ∀ fuel n, n ≤ fuel →
    ∃ m t, m < 10 ∧ natStrAux (fuel + 1) n = Char.ofNat (48 + m) :: t := by
  intro fuel
  induction fuel with
  | zero =>
      intro n hn
      have : n = 0 := by omega
      subst this
      exact ⟨0, [], by omega, rfl⟩
  | succ f ih =>
      intro n hn
      rw [natStrAux]
      by_cases h : n < 10
      · exact ⟨n, [], h, by rw [if_pos h]⟩
      · obtain ⟨m, t, hm, ht⟩ := ih (n / 10) (by omega)
        refine ⟨m, t ++ [Char.ofNat (48 + n % 10)], hm, ?_⟩
        rw [if_neg h, ht]
        rfl

theorem natStr_head (n : Nat) :
    ∃ m t, m < 10 ∧ natStr n = Char.ofNat (48 + m) :: t :=
  natStrAux_head n n (le_refl n)

theorem digitCharFacts : ∀ m < 10,
    isWsChar (Char.ofNat (48 + m)) = false ∧
    ¬ Char.ofNat (48 + m) = ']' ∧ ¬ Char.ofNat (48 + m) = '}' ∧
    ¬ Char.ofNat (48 + m) = 'n' ∧ ¬ Char.ofNat (48 + m) = 't' ∧
    ¬ Char.ofNat (48 + m) = 'f' ∧ ¬ Char.ofNat (48 + m) = '"' ∧
    ¬ Char.ofNat (48 + m) = '[' ∧ ¬ Char.ofNat (48 + m) = '{' ∧
    ¬ Char.ofNat (48 + m) = '-' := by
  decide

theorem dumps_head : ∀ v : Json, ∃ c t, dumps v = c :: t ∧
    isWsChar c = false ∧ ¬ c = ']' ∧ ¬ c = '}'
  | .null => ⟨'n', _, rfl, by decide, by decide, by decide⟩
  | .jbool true => ⟨'t', _, rfl, by decide, by decide, by decide⟩
  | .jbool false => ⟨'f', _, rfl, by decide, by decide, by decide⟩
  | .jstr s => ⟨'"', _, rfl, by decide, by decide, by decide⟩
  | .jarr [] => ⟨'[', _, rfl, by decide, by decide, by decide⟩
  | .jarr (x :: xs) => ⟨'[', _, rfl, by decide, by decide, by decide⟩
  | .jobj [] => ⟨'{', _, rfl, by decide, by decide, by decide⟩
  | .jobj (kv :: kvs) => ⟨'{', _, rfl, by decide, by decide, by decide⟩
  | .jnum n => by
      rw [show dumps (.jnum n) = intStr n from rfl, intStr]
      by_cases hn : n < 0
      · rw [if_pos hn]
        exact ⟨'-', _, rfl, by decide, by decide, by decide⟩
      · rw [if_neg hn]
        obtain ⟨m, t, hm, ht⟩ := natStr_head n.natAbs
        obtain ⟨f1, f2, f3, _⟩ := digitCharFacts m hm
        exact ⟨Char.ofNat (48 + m), t, ht, f1, f2, f3⟩

theorem skipWs_dumps (v : Json) (r : List Char) :
    skipWs (dumps v ++ r) = dumps v ++ r := by
  obtain ⟨c, t, heq, hws, _, _⟩ := dumps_head v
  rw [heq]
  rw [show (c :: t) ++ r = c :: (t ++ r) from rfl]
  exact skipWs_cons_not _ hws

theorem termRest_elems (xs : List Json) (r : List Char) :
    termRest (dumpsElemsTail xs ++ ']' :: r) = true := by
  cases xs with
  | nil => rfl
  | cons y ys => rfl

theorem termRest_members (kvs : List (List Char × Json)) (r : List Char) :
    termRest (dumpsMembersTail kvs ++ '}' :: r) = true := by
  cases kvs with
  | nil => rfl
  | cons kv kvs' => rfl

theorem skipWs_elems (xs : List Json) (r : List Char) :
    skipWs (dumpsElemsTail xs ++ ']' :: r) = dumpsElemsTail xs ++ ']' :: r := by
  cases xs with
  | nil => exact skipWs_cons_not _ (by decide)
  | cons y ys =>
      rw [show dumpsElemsTail (y :: ys) ++ ']' :: r =
            ',' :: (' ' :: (dumps y ++ dumpsElemsTail ys) ++ ']' :: r) from rfl]
      exact skipWs_cons_not _ (by decide)

theorem skipWs_members (kvs : List (List Char × Json)) (r : List Char) :
    skipWs (dumpsMembersTail kvs ++ '}' :: r) = dumpsMembersTail kvs ++ '}' :: r := by
  cases kvs with
  | nil => exact skipWs_cons_not _ (by decide)
  | cons kv kvs' =>
      rw [show dumpsMembersTail (kv :: kvs') ++ '}' :: r =
            ',' :: (' ' :: (dumpsMember kv ++ dumpsMembersTail kvs') ++ '}' :: r) from rfl]
      exact skipWs_cons_not _ (by decide)

theorem keyNotIn_append (x : List Char) (l1 l2 : List (List Char × Json)) :
    keyNotIn x (l1 ++ l2) = (keyNotIn x l1 && keyNotIn x l2) := by
  simp [keyNotIn, List.any_append]

theorem keyNotIn_cons (x : List Char) (p : List Char × Json)
    (l : List (List Char × Json)) :
    keyNotIn x (p :: l) = (!(decide (p.1 = x)) && keyNotIn x l) := by
  simp [keyNotIn, List.any_cons]

theorem nodupKeys_middle : ∀ (acc : List (List Char × Json)) (k : List Char) (v : Json)
    (kvs : List (List Char × Json)), nodupKeys (acc ++ (k, v) :: kvs) = true →
    acc.any (fun kv => decide (kv.1 = k)) = false ∧
      nodupKeys ((acc ++ [(k, v)]) ++ kvs) = true
  | [], k, v, kvs, h => by
      constructor
      · rfl
      · exact h
  | a :: acc', k, v, kvs, h => by
      rw [show (a :: acc') ++ (k, v) :: kvs = a :: (acc' ++ (k, v) :: kvs) from rfl,
        nodupKeys, Bool.and_eq_true] at h
      obtain ⟨hk, hrest⟩ := h
      obtain ⟨ih1, ih2⟩ := nodupKeys_middle acc' k v kvs hrest
      rw [keyNotIn_append, Bool.and_eq_true, keyNotIn_cons, Bool.and_eq_true] at hk
      have hacc := hk.1
      have hmid := hk.2.1
      have hkvs := hk.2.2
      have hkne : (decide (a.1 = k)) = false := by
        simp only [Bool.not_eq_true'] at hmid
        simp only [decide_eq_false_iff_not]
        intro he
        exact absurd he.symm (by simpa using hmid)
      constructor
      · simp only [List.any_cons, Bool.or_eq_false_iff]
        exact ⟨hkne, ih1⟩
      · rw [show ((a :: acc') ++ [(k, v)]) ++ kvs = a :: ((acc' ++ [(k, v)]) ++ kvs) from rfl,
          nodupKeys, Bool.and_eq_true]
        refine ⟨?_, ih2⟩
        rw [keyNotIn_append, keyNotIn_append, keyNotIn_cons]
        rw [hacc, hkvs, hmid]
        rw [show keyNotIn a.1 ([] : List (List Char × Json)) = true from rfl]
        rfl

theorem insertField_fresh (acc : List (List Char × Json)) (k : List Char) (v : Json)
    (h : acc.any (fun kv => decide (kv.1 = k)) = false) :
    insertField acc k v = acc ++ [(k, v)] := by
  rw [insertField, if_neg (by rw [h]; exact Bool.false_ne_true)]

theorem dumpsMember_length (k : List Char) (v : Json) :
    (dumpsMember (k, v)).length = 4 + (escStr k).length + (dumps v).length := by
  rw [show dumpsMember (k, v) = '"' :: (escStr k ++ ('"' :: ':' :: ' ' :: dumps v)) from rfl]
  simp only [List.length_cons, List.length_append]
  omega

theorem parseVal_default (fuel : Nat) (c : Char) (r : List Char)
    (h1 : ¬ c = 'n') (h2 : ¬ c = 't') (h3 : ¬ c = 'f') (h4 : ¬ c = '"')
    (h5 : ¬ c = '[') (h6 : ¬ c = '{') :
    parseVal (fuel + 1) (c :: r) = parseNumber (c :: r) := by
  rw [show parseVal (fuel + 1) (c :: r) =
        (if c = 'n' then parseNull r
         else if c = 't' then parseTrue r
         else if c = 'f' then parseFalse r
         else if c = '"' then (parseStringBody r).map (fun p => (Json.jstr p.1, p.2))
         else if c = '[' then
           match skipWs r with
           | [] => none
           | c1 :: r1 =>
               if c1 = ']' then some (Json.jarr [], r1)
               else
                 match parseVal fuel (c1 :: r1) with
                 | some (x, r2) => parseElems fuel [x] (skipWs r2)
                 | none => none
         else if c = '{' then
           match skipWs r with
           | [] => none
           | c1 :: r1 =>
               if c1 = '}' then some (Json.jobj [], r1)
               else parseMember fuel [] (c1 :: r1)
         else parseNumber (c :: r)) from rfl]
  rw [if_neg h1, if_neg h2, if_neg h3, if_neg h4, if_neg h5, if_neg h6]

mutual
theorem rt_val : ∀ (v : Json) (fuel : Nat) (rest : List Char),
    (dumps v).length < fuel → wf v = true → termRest rest = true →
    parseVal fuel (dumps v ++ rest) = some (v, rest)
  | .null, fuel, rest, hf, _, _ => by
      cases fuel with
      | zero => exact absurd hf (Nat.not_lt_zero _)
      | succ f => rfl
  | .jbool true, fuel, rest, hf, _, _ => by
      cases fuel with
      | zero => exact absurd hf (Nat.not_lt_zero _)
      | succ f => rfl
  | .jbool false, fuel, rest, hf, _, _ => by
      cases fuel with
      | zero => exact absurd hf (Nat.not_lt_zero _)
      | succ f => rfl
  | .jnum n, fuel, rest, hf, _, hrest => by
      cases fuel with
      | zero => exact absurd hf (Nat.not_lt_zero _)
      | succ f =>
      have hps := parseNumber_intStr n rest hrest
      rw [show dumps (Json.jnum n) = intStr n from rfl]
      by_cases hn : n < 0
      · rw [intStr, if_pos hn] at hps ⊢
        rw [show ('-' :: natStr n.natAbs) ++ rest = '-' :: (natStr n.natAbs ++ rest) from rfl]
          at hps ⊢
        rw [show parseVal (f + 1) ('-' :: (natStr n.natAbs ++ rest)) =
              parseNumber ('-' :: (natStr n.natAbs ++ rest)) from rfl]
        exact hps
      · rw [intStr, if_neg hn] at hps ⊢
        obtain ⟨m, t, hm, hnat⟩ := natStr_head n.natAbs
        obtain ⟨_, _, _, g1, g2, g3, g4, g5, g6, _⟩ := digitCharFacts m hm
        rw [hnat] at hps ⊢
        rw [show (Char.ofNat (48 + m) :: t) ++ rest = Char.ofNat (48 + m) :: (t ++ rest)
              from rfl] at hps ⊢
        rw [parseVal_default f _ _ g1 g2 g3 g4 g5 g6]
        exact hps
  | .jstr s, fuel, rest, hf, _, _ => by
      cases fuel with
      | zero => exact absurd hf (Nat.not_lt_zero _)
      | succ f =>
      rw [show dumps (Json.jstr s) ++ rest = '"' :: (escStr s ++ '"' :: rest) from by
        rw [show dumps (Json.jstr s) = '"' :: (escStr s ++ ['"']) from rfl]
        simp [List.append_assoc]]
      rw [show parseVal (f + 1) ('"' :: (escStr s ++ '"' :: rest)) =
            (parseStringBody (escStr s ++ '"' :: rest)).map
              (fun p => (Json.jstr p.1, p.2)) from rfl]
      rw [parseStringBody_escStr]
      rfl
  | .jarr [], fuel, rest, hf, _, _ => by
      cases fuel with
      | zero => exact absurd hf (Nat.not_lt_zero _)
      | succ f => rfl
  | .jarr (x :: xs), fuel, rest, hf, hwf, _ => by
      cases fuel with
      | zero => exact absurd hf (Nat.not_lt_zero _)
      | succ f =>
      rw [wf, wfElems, Bool.and_eq_true] at hwf
      have hlen : (dumps (Json.jarr (x :: xs))).length =
          2 + (dumps x).length + (dumpsElemsTail xs).length := by
        rw [show dumps (Json.jarr (x :: xs)) =
              '[' :: (dumps x ++ (dumpsElemsTail xs ++ [']'])) from rfl]
        simp only [List.length_cons, List.length_append, List.length_nil]
        omega
      have hb1 : (dumps x).length < f := by rw [hlen] at hf; omega
      have hb2 : (dumpsElemsTail xs).length < f := by rw [hlen] at hf; omega
      rw [show dumps (Json.jarr (x :: xs)) ++ rest =
            '[' :: (dumps x ++ (dumpsElemsTail xs ++ ']' :: rest)) from by
          rw [show dumps (Json.jarr (x :: xs)) =
                '[' :: (dumps x ++ (dumpsElemsTail xs ++ [']'])) from rfl]
          simp [List.append_assoc]]
      rw [show ∀ L, parseVal (f + 1) ('[' :: L) =
            (match skipWs L with
             | [] => none
             | c1 :: r1 =>
                 if c1 = ']' then some (Json.jarr [], r1)
                 else
                   match parseVal f (c1 :: r1) with
                   | some (x, r2) => parseElems f [x] (skipWs r2)
                   | none => none) from fun L => rfl]
      rw [skipWs_dumps x (dumpsElemsTail xs ++ ']' :: rest)]
      obtain ⟨c0, t0, hx, hws0, hbr0, _⟩ := dumps_head x
      rw [show dumps x ++ (dumpsElemsTail xs ++ ']' :: rest) =
            c0 :: (t0 ++ (dumpsElemsTail xs ++ ']' :: rest)) from by rw [hx]; rfl]
      rw [show (match (c0 :: (t0 ++ (dumpsElemsTail xs ++ ']' :: rest))) with
             | [] => (none : Option (Json × List Char))
             | c1 :: r1 =>
                 if c1 = ']' then some (Json.jarr [], r1)
                 else
                   match parseVal f (c1 :: r1) with
                   | some (x, r2) => parseElems f [x] (skipWs r2)
                   | none => none) =
            (if c0 = ']' then some (Json.jarr [], t0 ++ (dumpsElemsTail xs ++ ']' :: rest))
             else
               match parseVal f (c0 :: (t0 ++ (dumpsElemsTail xs ++ ']' :: rest))) with
               | some (x, r2) => parseElems f [x] (skipWs r2)
               | none => none) from rfl]
      rw [if_neg hbr0]
      rw [show c0 :: (t0 ++ (dumpsElemsTail xs ++ ']' :: rest)) =
            dumps x ++ (dumpsElemsTail xs ++ ']' :: rest) from by rw [hx]; rfl]
      rw [rt_val x f (dumpsElemsTail xs ++ ']' :: rest) hb1 hwf.1
        (termRest_elems xs rest)]
      rw [show (match some (x, dumpsElemsTail xs ++ ']' :: rest) with
             | some (x, r2) => parseElems f [x] (skipWs r2)
             | none => (none : Option (Json × List Char))) =
            parseElems f [x] (skipWs (dumpsElemsTail xs ++ ']' :: rest)) from rfl]
      rw [skipWs_elems xs rest]
      rw [rt_elems xs f [x] rest hb2 hwf.2]
      rfl
  | .jobj [], fuel, rest, hf, _, _ => by
      cases fuel with
      | zero => exact absurd hf (Nat.not_lt_zero _)
      | succ f => rfl
  | .jobj ((k, v) :: kvs), fuel, rest, hf, hwf, _ => by
      cases fuel with
      | zero => exact absurd hf (Nat.not_lt_zero _)
      | succ f =>
      rw [wf, Bool.and_eq_true] at hwf
      have hwfm : wf v = true ∧ wfMembers kvs = true := by
        have := hwf.2
        rw [wfMembers, Bool.and_eq_true] at this
        exact this
      have hlen : (dumps (Json.jobj ((k, v) :: kvs))).length =
          2 + (dumpsMember (k, v)).length + (dumpsMembersTail kvs).length := by
        rw [show dumps (Json.jobj ((k, v) :: kvs)) =
              '{' :: (dumpsMember (k, v) ++ (dumpsMembersTail kvs ++ ['}'])) from rfl]
        simp only [List.length_cons, List.length_append, List.length_nil]
        omega
      rw [show dumps (Json.jobj ((k, v) :: kvs)) ++ rest =
            '{' :: (dumpsMember (k, v) ++ (dumpsMembersTail kvs ++ '}' :: rest)) from by
          rw [show dumps (Json.jobj ((k, v) :: kvs)) =
                '{' :: (dumpsMember (k, v) ++ (dumpsMembersTail kvs ++ ['}'])) from rfl]
          simp [List.append_assoc]]
      rw [show ∀ L, parseVal (f + 1) ('{' :: L) =
            (match skipWs L with
             | [] => none
             | c1 :: r1 =>
                 if c1 = '}' then some (Json.jobj [], r1)
                 else parseMember f [] (c1 :: r1)) from fun L => rfl]
      rw [show dumpsMember (k, v) ++ (dumpsMembersTail kvs ++ '}' :: rest) =
            '"' :: ((escStr k ++ ('"' :: ':' :: ' ' :: dumps v)) ++
              (dumpsMembersTail kvs ++ '}' :: rest)) from rfl]
      rw [skipWs_cons_not _ (by decide)]
      rw [show (match ('"' :: ((escStr k ++ ('"' :: ':' :: ' ' :: dumps v)) ++
              (dumpsMembersTail kvs ++ '}' :: rest))) with
             | [] => (none : Option (Json × List Char))
             | c1 :: r1 =>
                 if c1 = '}' then some (Json.jobj [], r1)
                 else parseMember f [] (c1 :: r1)) =
            parseMember f [] ('"' :: ((escStr k ++ ('"' :: ':' :: ' ' :: dumps v)) ++
              (dumpsMembersTail kvs ++ '}' :: rest))) from rfl]
      rw [show '"' :: ((escStr k ++ ('"' :: ':' :: ' ' :: dumps v)) ++
              (dumpsMembersTail kvs ++ '}' :: rest)) =
            dumpsMember (k, v) ++ (dumpsMembersTail kvs ++ '}' :: rest) from rfl]
      have := rt_member (k, v) kvs f [] rest (by rw [hlen] at hf; omega) hwfm.1 hwfm.2
        (by simpa using hwf.1)
      rw [this]
      rfl
termination_by _ fuel _ _ _ _ => fuel

theorem rt_elems : ∀ (xs : List Json) (fuel : Nat) (acc : List Json) (rest : List Char),
    (dumpsElemsTail xs).length < fuel → wfElems xs = true →
    parseElems fuel acc (dumpsElemsTail xs ++ ']' :: rest) = some (.jarr (acc ++ xs), rest)
  | [], fuel, acc, rest, hf, _ => by
      cases fuel with
      | zero => exact absurd hf (Nat.not_lt_zero _)
      | succ f =>
          rw [show dumpsElemsTail ([] : List Json) ++ ']' :: rest = ']' :: rest from rfl]
          rw [show parseElems (f + 1) acc (']' :: rest) = some (Json.jarr acc, rest) from rfl]
          rw [List.append_nil]
  | y :: ys, fuel, acc, rest, hf, hwf => by
      cases fuel with
      | zero => exact absurd hf (Nat.not_lt_zero _)
      | succ f =>
      rw [wfElems, Bool.and_eq_true] at hwf
      have hlen : (dumpsElemsTail (y :: ys)).length =
          2 + (dumps y).length + (dumpsElemsTail ys).length := by
        rw [show dumpsElemsTail (y :: ys) = ',' :: ' ' :: (dumps y ++ dumpsElemsTail ys)
              from rfl]
        simp only [List.length_cons, List.length_append, List.length_nil]
        omega
      rw [show dumpsElemsTail (y :: ys) ++ ']' :: rest =
            ',' :: ' ' :: (dumps y ++ (dumpsElemsTail ys ++ ']' :: rest)) from by
          rw [show dumpsElemsTail (y :: ys) = ',' :: ' ' :: (dumps y ++ dumpsElemsTail ys)
                from rfl]
          simp [List.append_assoc]]
      rw [show ∀ L, parseElems (f + 1) acc (',' :: L) =
            (match parseVal f (skipWs L) with
             | some (x, r2) => parseElems f (acc ++ [x]) (skipWs r2)
             | none => none) from fun L => rfl]
      rw [show skipWs (' ' :: (dumps y ++ (dumpsElemsTail ys ++ ']' :: rest))) =
            dumps y ++ (dumpsElemsTail ys ++ ']' :: rest) from by
          rw [skipWs_space]
          exact skipWs_dumps y _]
      rw [rt_val y f (dumpsElemsTail ys ++ ']' :: rest) (by omega) hwf.1
        (termRest_elems ys rest)]
      rw [show (match some (y, dumpsElemsTail ys ++ ']' :: rest) with
             | some (x, r2) => parseElems f (acc ++ [x]) (skipWs r2)
             | none => (none : Option (Json × List Char))) =
            parseElems f (acc ++ [y]) (skipWs (dumpsElemsTail ys ++ ']' :: rest)) from rfl]
      rw [skipWs_elems ys rest]
      rw [rt_elems ys f (acc ++ [y]) rest (by omega) hwf.2]
      rw [List.append_assoc]
      rfl
termination_by _ fuel _ _ _ _ => fuel

theorem rt_member : ∀ (kv : List Char × Json) (kvs : List (List Char × Json)) (fuel : Nat)
    (acc : List (List Char × Json)) (rest : List Char),
    (dumpsMember kv).length + (dumpsMembersTail kvs).length < fuel →
    wf kv.2 = true → wfMembers kvs = true →
    nodupKeys (acc ++ kv :: kvs) = true →
    parseMember fuel acc (dumpsMember kv ++ (dumpsMembersTail kvs ++ '}' :: rest)) =
      some (.jobj (acc ++ kv :: kvs), rest)
  | (k, v), kvs, fuel, acc, rest, hf, hwfv, hwfm, hnd => by
      cases fuel with
      | zero => exact absurd hf (Nat.not_lt_zero _)
      | succ f =>
      have hmlen := dumpsMember_length k v
      have hfresh := nodupKeys_middle acc k v kvs hnd
      have hbv : (dumps v).length < f := by omega
      rw [show dumpsMember (k, v) ++ (dumpsMembersTail kvs ++ '}' :: rest) =
            '"' :: (escStr k ++ '"' :: (':' :: ' ' ::
              (dumps v ++ (dumpsMembersTail kvs ++ '}' :: rest)))) from by
          rw [show dumpsMember (k, v) =
                '"' :: (escStr k ++ ('"' :: ':' :: ' ' :: dumps v)) from rfl]
          simp [List.append_assoc]]
      rw [show ∀ L, parseMember (f + 1) acc ('"' :: L) =
            (match parseStringBody L with
             | some (k, r2) =>
                 (match skipWs r2 with
                  | ':' :: r3 =>
                      (match parseVal f (skipWs r3) with
                       | some (v, r4) =>
                           (match skipWs r4 with
                            | ',' :: r5 => parseMember f (insertField acc k v) (skipWs r5)
                            | '}' :: r5 => some (Json.jobj (insertField acc k v), r5)
                            | _ => none)
                       | none => none)
                  | _ => none)
             | none => none) from fun L => rfl]
      rw [parseStringBody_escStr k (':' :: ' ' :: (dumps v ++ (dumpsMembersTail kvs ++
        '}' :: rest)))]
      show (match skipWs (':' :: ' ' :: (dumps v ++ (dumpsMembersTail kvs ++
              '}' :: rest))) with
           | ':' :: r3 =>
               (match parseVal f (skipWs r3) with
                | some (v, r4) =>
                    (match skipWs r4 with
                     | ',' :: r5 => parseMember f (insertField acc k v) (skipWs r5)
                     | '}' :: r5 => some (Json.jobj (insertField acc k v), r5)
                     | _ => none)
                | none => none)
           | _ => none) = some (Json.jobj (acc ++ (k, v) :: kvs), rest)
      rw [skipWs_cons_not (' ' :: (dumps v ++ (dumpsMembersTail kvs ++ '}' :: rest)))
        (by decide)]
      show (match parseVal f (skipWs (' ' :: (dumps v ++ (dumpsMembersTail kvs ++
              '}' :: rest)))) with
           | some (v, r4) =>
               (match skipWs r4 with
                | ',' :: r5 => parseMember f (insertField acc k v) (skipWs r5)
                | '}' :: r5 => some (Json.jobj (insertField acc k v), r5)
                | _ => none)
           | none => none) = some (Json.jobj (acc ++ (k, v) :: kvs), rest)
      rw [show skipWs (' ' :: (dumps v ++ (dumpsMembersTail kvs ++ '}' :: rest))) =
            dumps v ++ (dumpsMembersTail kvs ++ '}' :: rest) from by
          rw [skipWs_space]
          exact skipWs_dumps v _]
      rw [rt_val v f (dumpsMembersTail kvs ++ '}' :: rest) hbv hwfv
        (termRest_members kvs rest)]
      show (match skipWs (dumpsMembersTail kvs ++ '}' :: rest) with
           | ',' :: r5 => parseMember f (insertField acc k v) (skipWs r5)
           | '}' :: r5 => some (Json.jobj (insertField acc k v), r5)
           | _ => none) = some (Json.jobj (acc ++ (k, v) :: kvs), rest)
      rw [skipWs_members kvs rest]
      rw [insertField_fresh acc k v hfresh.1]
      cases kvs with
      | nil =>
          show (match ('}' :: rest) with
               | ',' :: r5 => parseMember f (acc ++ [(k, v)]) (skipWs r5)
               | '}' :: r5 => some (Json.jobj (acc ++ [(k, v)]), r5)
               | _ => none) = some (Json.jobj (acc ++ (k, v) :: []), rest)
          rfl
      | cons kv2 kvs2 =>
          obtain ⟨k2, v2⟩ := kv2
          have hwfm2 : wf v2 = true ∧ wfMembers kvs2 = true := by
            rw [wfMembers, Bool.and_eq_true] at hwfm
            exact hwfm
          have hlen2 : (dumpsMembersTail ((k2, v2) :: kvs2)).length =
              2 + (dumpsMember (k2, v2)).length + (dumpsMembersTail kvs2).length := by
            rw [show dumpsMembersTail ((k2, v2) :: kvs2) =
                  ',' :: ' ' :: (dumpsMember (k2, v2) ++ dumpsMembersTail kvs2) from rfl]
            simp only [List.length_cons, List.length_append, List.length_nil]
            omega
          have hb2 : (dumpsMember (k2, v2)).length + (dumpsMembersTail kvs2).length < f := by
            rw [hlen2] at hf
            omega
          rw [show dumpsMembersTail ((k2, v2) :: kvs2) ++ '}' :: rest =
                ',' :: ' ' :: (dumpsMember (k2, v2) ++ (dumpsMembersTail kvs2 ++
                  '}' :: rest)) from by
              rw [show dumpsMembersTail ((k2, v2) :: kvs2) =
                    ',' :: ' ' :: (dumpsMember (k2, v2) ++ dumpsMembersTail kvs2) from rfl]
              simp [List.append_assoc]]
          show parseMember f (acc ++ [(k, v)]) (skipWs (' ' :: (dumpsMember (k2, v2) ++
                (dumpsMembersTail kvs2 ++ '}' :: rest)))) =
              some (Json.jobj (acc ++ (k, v) :: (k2, v2) :: kvs2), rest)
          rw [show skipWs (' ' :: (dumpsMember (k2, v2) ++ (dumpsMembersTail kvs2 ++
                '}' :: rest))) = dumpsMember (k2, v2) ++ (dumpsMembersTail kvs2 ++
                '}' :: rest) from by
              rw [skipWs_space]
              rw [show dumpsMember (k2, v2) =
                    '"' :: (escStr k2 ++ ('"' :: ':' :: ' ' :: dumps v2)) from rfl]
              exact skipWs_cons_not _ (by decide)]
          have hrec := rt_member (k2, v2) kvs2 f (acc ++ [(k, v)]) rest hb2
            hwfm2.1 hwfm2.2 (by rw [List.append_assoc]; exact (by simpa using hfresh.2))
          rw [hrec]
          rw [List.append_assoc]
          rfl
termination_by _ _ fuel _ _ _ _ _ _ => fuel
end

theorem loads_dumps (v : Json) (h : wf v = true) : loads (dumps v) = some v := by
  rw [loads]
  have hsw : skipWs (dumps v) = dumps v := by
    have := skipWs_dumps v []
    simpa using this
  rw [hsw]
  have hrt := rt_val v ((dumps v).length + 1) [] (by omega) h rfl
  rw [List.append_nil] at hrt
  rw [hrt]
  rfl

/-! ### `EncryptionService.encrypt_json` / `EncryptionService.decrypt_json` -/

/-- `encrypt_json`: an empty (falsy) dictionary returns `None`; otherwise the
document is serialized with `json.dumps` and encrypted as a scalar. -/
def encrypt_json (key : Nat) (data : List (List Char × Json)) : Option (List Char) :=
  match data with
  | [] => none
  | kv :: kvs => encrypt key (.vstr (dumps (.jobj (kv :: kvs))))

/-- `decrypt_json` on a string input: a falsy input returns `None`; the input
is decrypted (the scalar `decrypt` never raises), an empty result returns
`None`, and `json.loads` is applied — a parse failure is re-raised as
`ValueError` (`Except.error`). -/
def decrypt_json (key : Nat) (ciphertext : List Char) :
    Except (List Char) (Option Json) :=
  if ciphertext = [] then .ok none
  else
    match decrypt key (.vstr ciphertext) with
    | none => .ok none
    | some js =>
        if js = [] then .ok none
        else
          match loads js with
          | some d => .ok (some d)
          | none => .error ("Failed to decrypt JSON data".toList)

/-- `decrypt_json` lifted to the `Optional[str]` argument type. -/
def decrypt_jsonOpt (key : Nat) : Option (List Char) → Except (List Char) (Option Json)
  | none => .ok none
  | some ct => decrypt_json key ct

theorem dumps_ne_nil (v : Json) : dumps v ≠ [] := by
  obtain ⟨c, t, heq, _, _, _⟩ := dumps_head v
  rw [heq]
  simp

theorem decrypt_json_encrypt_json (key : Nat) (d : List (List Char × Json))
    (hd : d ≠ []) (hwf : wf (.jobj d) = true) :
    decrypt_jsonOpt key (encrypt_json key d) = .ok (some (.jobj d)) := by
  obtain ⟨kv0, d0, rfl⟩ : ∃ kv0 d0, d = kv0 :: d0 := by
    cases d with
    | nil => exact absurd rfl hd
    | cons a b => exact ⟨a, b, rfl⟩
  rw [show encrypt_json key (kv0 :: d0) =
        encrypt key (.vstr (dumps (.jobj (kv0 :: d0)))) from rfl]
  set d := kv0 :: d0 with hdd
  have hne := dumps_ne_nil (.jobj d)
  rw [show encrypt key (.vstr (dumps (.jobj d))) =
        some (encTok key (dumps (.jobj d))) from by
      rw [encrypt, if_neg hne]]
  rw [show decrypt_jsonOpt key (some (encTok key (dumps (.jobj d)))) =
        decrypt_json key (encTok key (dumps (.jobj d))) from rfl]
  have htokne : encTok key (dumps (.jobj d)) ≠ [] := by
    intro h
    have := encTok_length key (dumps (.jobj d))
    rw [h] at this
    simp only [List.length_nil] at this
    omega
  rw [decrypt_json, if_neg htokne, decrypt_encTok]
  show (if dumps (Json.jobj d) = [] then Except.ok none
        else
          match loads (dumps (Json.jobj d)) with
          | some dd => Except.ok (some dd)
          | none => Except.error ("Failed to decrypt JSON data".toList)) =
      Except.ok (some (Json.jobj d))
  rw [if_neg hne, loads_dumps _ hwf]

/-! ### Employee records (`encrypt_employee_pii` / `decrypt_employee_pii`)

Python dictionaries as ordered association lists.  `rget` models `d.get(k)`
(`None` when absent); `rset` models `d[k] = v` (overwrite in place, append
when fresh).  The dictionary invariant of distinct keys is `nodupRec`. -/

def rget (r : List (String × PyVal)) (k : String) : PyVal :=
  match r.find? (fun kv => decide (kv.1 = k)) with
  | some kv => kv.2
  | none => .vnone

def rset (r : List (String × PyVal)) (k : String) (v : PyVal) : List (String × PyVal) :=
  if r.any (fun kv => decide (kv.1 = k)) then
    r.map (fun kv => if kv.1 = k then (k, v) else kv)
  else r ++ [(k, v)]

def rkeys (r : List (String × PyVal)) : List String := r.map Prod.fst

def rkeyNotIn (k : String) (r : List (String × PyVal)) : Bool :=
  !(r.any (fun kv => decide (kv.1 = k)))

/-- The Python dictionary invariant: pairwise distinct keys. -/
def nodupRec : List (String × PyVal) → Bool
  | [] => true
  | kv :: r => rkeyNotIn kv.1 r && nodupRec r

/-- One guarded decryption step of `decrypt_employee_pii`: a truthy field is
replaced by its decryption, others are left alone. -/
def decStep (key : Nat) (r : List (String × PyVal)) (f : String) :
    List (String × PyVal) :=
  if pyTruthy (rget r f) then rset r f (optVal (decrypt key (rget r f))) else r

/-- `EncryptionService.decrypt_employee_pii`: copy the record, then decrypt
`ni_number`, `pensionable_salary` and `date_of_birth` when truthy. -/
def decrypt_employee_pii (key : Nat) (r : List (String × PyVal)) :
    List (String × PyVal) :=
  decStep key (decStep key (decStep key r "ni_number") "pensionable_salary") "date_of_birth"

/-- The `ni_number` step of `encrypt_employee_pii`: the raw value is passed
to `encrypt` (which stringifies internally). -/
def encStepRaw (key : Nat) (r : List (String × PyVal)) (f : String) :
    List (String × PyVal) :=
  if pyTruthy (rget r f) then rset r f (optVal (encrypt key (rget r f))) else r

/-- The salary and date-of-birth steps of `encrypt_employee_pii`: the value
is passed through `str()` before `encrypt`. -/
def encStepStr (key : Nat) (r : List (String × PyVal)) (f : String) :
    List (String × PyVal) :=
  if pyTruthy (rget r f) then rset r f (optVal (encrypt key (.vstr (pyStr (rget r f)))))
  else r

/-- `EncryptionService.encrypt_employee_pii`: copy the record, then encrypt
`ni_number`, `pensionable_salary` and `date_of_birth` when truthy. -/
def encrypt_employee_pii (key : Nat) (r : List (String × PyVal)) :
    List (String × PyVal) :=
  encStepStr key (encStepStr key (encStepRaw key r "ni_number") "pensionable_salary")
    "date_of_birth"

/-- The value-level effect of one decryption step on a field. -/
def dval (key : Nat) (v : PyVal) : PyVal :=
  if pyTruthy v then optVal (decrypt key v) else v

theorem rget_present (r : List (String × PyVal)) (k : String)
    (h : pyTruthy (rget r k) = true) :
    r.any (fun kv => decide (kv.1 = k)) = true := by
  by_cases ha : r.any (fun kv => decide (kv.1 = k)) = true
  · exact ha
  · exfalso
    have hfind : r.find? (fun kv => decide (kv.1 = k)) = none := by
      rw [List.find?_eq_none]
      intro x hx hpx
      exact ha (List.any_eq_true.mpr ⟨x, hx, hpx⟩)
    rw [rget, hfind] at h
    exact absurd h (by decide)

theorem rget_rset_ne (r : List (String × PyVal)) (k : String) (v : PyVal)
    (k' : String) (hne : ¬ k = k') : rget (rset r k v) k' = rget r k' := by
  rw [rset]
  by_cases ha : r.any (fun kv => decide (kv.1 = k)) = true
  · rw [if_pos ha, rget, rget, List.find?_map]
    have hpeq : ((fun kv : String × PyVal => decide (kv.1 = k')) ∘
        (fun kv => if kv.1 = k then (k, v) else kv)) =
        (fun kv : String × PyVal => decide (kv.1 = k')) := by
      funext kv
      by_cases h0 : kv.1 = k
      · simp [h0, hne]
      · simp [h0]
    rw [hpeq]
    cases hf : r.find? (fun kv : String × PyVal => decide (kv.1 = k')) with
    | none => rfl
    | some kv1 =>
        have hp := List.find?_some hf
        have h1 : kv1.1 = k' := by simpa using hp
        have h2 : ¬ kv1.1 = k := by
          rw [h1]
          intro hh
          exact hne hh.symm
        simp [h2]
  · rw [if_neg ha, rget, rget, List.find?_append]
    have hnone : List.find? (fun kv : String × PyVal => decide (kv.1 = k')) [(k, v)]
        = none := by
      simp [hne]
    rw [hnone]
    cases r.find? (fun kv : String × PyVal => decide (kv.1 = k')) with
    | none => rfl
    | some kv1 => rfl

theorem rget_rset_self (r : List (String × PyVal)) (k : String) (v : PyVal)
    (ha : r.any (fun kv => decide (kv.1 = k)) = true) :
    rget (rset r k v) k = v := by
  rw [rset, if_pos ha, rget, List.find?_map]
  have hpeq : ((fun kv : String × PyVal => decide (kv.1 = k)) ∘
      (fun kv => if kv.1 = k then (k, v) else kv)) =
      (fun kv : String × PyVal => decide (kv.1 = k)) := by
    funext kv
    by_cases h0 : kv.1 = k
    · simp [h0]
    · simp [h0]
  rw [hpeq]
  obtain ⟨x, hx, hpx⟩ := List.any_eq_true.mp ha
  cases hf : r.find? (fun kv : String × PyVal => decide (kv.1 = k)) with
  | none =>
      rw [List.find?_eq_none] at hf
      exact absurd hpx (hf x hx)
  | some kv1 =>
      have hp := List.find?_some hf
      have h1 : kv1.1 = k := by simpa using hp
      simp [h1]

theorem rkeys_rset (r : List (String × PyVal)) (k : String) (v : PyVal)
    (ha : r.any (fun kv => decide (kv.1 = k)) = true) :
    rkeys (rset r k v) = rkeys r := by
  rw [rset, if_pos ha, rkeys, rkeys, List.map_map]
  apply List.map_congr_left
  intro kv _
  by_cases h0 : kv.1 = k
  · simp [h0]
  · simp [h0]

theorem find?_of_mem_nodup : ∀ (r : List (String × PyVal)) (kv : String × PyVal)
    (k : String), nodupRec r = true → kv ∈ r → kv.1 = k →
    r.find? (fun kv => decide (kv.1 = k)) = some kv
  | [], kv, k, _, hmem, _ => by simp at hmem
  | kv0 :: r', kv, k, hnd, hmem, hk => by
      rw [nodupRec, Bool.and_eq_true] at hnd
      rcases List.mem_cons.mp hmem with h | h
      · subst h
        rw [List.find?_cons_of_pos]
        simp [hk]
      · have h0 : ¬ kv0.1 = k := by
          intro he
          have := hnd.1
          rw [rkeyNotIn, Bool.not_eq_true'] at this
          have : ¬ (r'.any (fun x => decide (x.1 = kv0.1)) = true) := by
            rw [this]
            exact Bool.false_ne_true
          exact this (List.any_eq_true.mpr ⟨kv, h, by simp [hk, he]⟩)
        rw [List.find?_cons_of_neg]
        · exact find?_of_mem_nodup r' kv k hnd.2 h hk
        · simp [h0]

theorem rset_rget_self (r : List (String × PyVal)) (k : String)
    (ha : r.any (fun kv => decide (kv.1 = k)) = true) (hnd : nodupRec r = true) :
    rset r k (rget r k) = r := by
  rw [rset, if_pos ha]
  conv_rhs => rw [← List.map_id r]
  apply List.map_congr_left
  intro kv hmem
  by_cases h0 : kv.1 = k
  · rw [if_pos h0]
    have := find?_of_mem_nodup r kv k hnd hmem h0
    rw [rget, this, id]
    rw [← h0]
  · simp [h0]

/-- Distinct keys is a property of the key list alone. -/
def keysNodupL : List String → Bool
  | [] => true
  | k :: ks => !(ks.any (fun x => decide (x = k))) && keysNodupL ks

theorem nodupRec_eq_keys : ∀ r : List (String × PyVal),
    nodupRec r = true ↔ keysNodupL (rkeys r) = true
  | [] => Iff.rfl
  | kv :: r' => by
      rw [show rkeys (kv :: r') = kv.1 :: rkeys r' from rfl]
      rw [nodupRec, keysNodupL]
      have hmap : ((rkeys r').any (fun x => decide (x = kv.1))) =
          (r'.any (fun kv2 => decide (kv2.1 = kv.1))) := by
        rw [rkeys]
        induction r' with
        | nil => rfl
        | cons kv2 r2 ih => simp [List.any_cons, ih]
      rw [Bool.and_eq_true, Bool.and_eq_true, rkeyNotIn, hmap]
      exact and_congr Iff.rfl (nodupRec_eq_keys r')

theorem nodupRec_of_keys_eq (r1 r2 : List (String × PyVal))
    (h : rkeys r1 = rkeys r2) (h1 : nodupRec r1 = true) : nodupRec r2 = true := by
  rw [nodupRec_eq_keys] at h1 ⊢
  rw [← h]
  exact h1

theorem rget_step_ne (r : List (String × PyVal)) (f g : String) (w : PyVal)
    (h : ¬ f = g) :
    rget (if pyTruthy (rget r f) then rset r f w else r) g = rget r g := by
  by_cases ht : pyTruthy (rget r f) = true
  · rw [if_pos ht, rget_rset_ne _ _ _ _ h]
  · rw [if_neg ht]

theorem rkeys_step (r : List (String × PyVal)) (f : String) (w : PyVal) :
    rkeys (if pyTruthy (rget r f) then rset r f w else r) = rkeys r := by
  by_cases ht : pyTruthy (rget r f) = true
  · rw [if_pos ht, rkeys_rset _ _ _ (rget_present r f ht)]
  · rw [if_neg ht]

theorem rget_step_same (r : List (String × PyVal)) (f : String) (w : PyVal) :
    rget (if pyTruthy (rget r f) then rset r f w else r) f =
      (if pyTruthy (rget r f) then w else rget r f) := by
  by_cases ht : pyTruthy (rget r f) = true
  · rw [if_pos ht, if_pos ht, rget_rset_self _ _ _ (rget_present r f ht)]
  · rw [if_neg ht, if_neg ht]

/-- The value-level effect of the `ni_number` encryption step. -/
def evalRaw (key : Nat) (v : PyVal) : PyVal :=
  if pyTruthy v then optVal (encrypt key v) else v

/-- The value-level effect of the salary / date-of-birth encryption steps. -/
def evalStr (key : Nat) (v : PyVal) : PyVal :=
  if pyTruthy v then optVal (encrypt key (.vstr (pyStr v))) else v

theorem rget_decStep_ne (key : Nat) (r : List (String × PyVal)) (f g : String)
    (h : ¬ f = g) : rget (decStep key r f) g = rget r g :=
  rget_step_ne r f g _ h

theorem rget_decStep_same (key : Nat) (r : List (String × PyVal)) (f : String) :
    rget (decStep key r f) f = dval key (rget r f) := by
  rw [decStep, dval]
  exact rget_step_same r f _

theorem rkeys_decStep (key : Nat) (r : List (String × PyVal)) (f : String) :
    rkeys (decStep key r f) = rkeys r :=
  rkeys_step r f _

theorem rget_encStepRaw_ne (key : Nat) (r : List (String × PyVal)) (f g : String)
    (h : ¬ f = g) : rget (encStepRaw key r f) g = rget r g :=
  rget_step_ne r f g _ h

theorem rget_encStepRaw_same (key : Nat) (r : List (String × PyVal)) (f : String) :
    rget (encStepRaw key r f) f = evalRaw key (rget r f) := by
  rw [encStepRaw, evalRaw]
  exact rget_step_same r f _

theorem rkeys_encStepRaw (key : Nat) (r : List (String × PyVal)) (f : String) :
    rkeys (encStepRaw key r f) = rkeys r :=
  rkeys_step r f _

theorem rget_encStepStr_ne (key : Nat) (r : List (String × PyVal)) (f g : String)
    (h : ¬ f = g) : rget (encStepStr key r f) g = rget r g :=
  rget_step_ne r f g _ h

theorem rget_encStepStr_same (key : Nat) (r : List (String × PyVal)) (f : String) :
    rget (encStepStr key r f) f = evalStr key (rget r f) := by
  rw [encStepStr, evalStr]
  exact rget_step_same r f _

theorem rkeys_encStepStr (key : Nat) (r : List (String × PyVal)) (f : String) :
    rkeys (encStepStr key r f) = rkeys r :=
  rkeys_step r f _

theorem rkeys_decrypt_employee_pii (key : Nat) (r : List (String × PyVal)) :
    rkeys (decrypt_employee_pii key r) = rkeys r := by
  rw [decrypt_employee_pii, rkeys_decStep, rkeys_decStep, rkeys_decStep]

theorem rkeys_encrypt_employee_pii (key : Nat) (r : List (String × PyVal)) :
    rkeys (encrypt_employee_pii key r) = rkeys r := by
  rw [encrypt_employee_pii, rkeys_encStepStr, rkeys_encStepStr, rkeys_encStepRaw]

theorem rget_decrypt_employee_pii_other (key : Nat) (r : List (String × PyVal))
    (g : String) (h1 : ¬ "ni_number" = g) (h2 : ¬ "pensionable_salary" = g)
    (h3 : ¬ "date_of_birth" = g) :
    rget (decrypt_employee_pii key r) g = rget r g := by
  rw [decrypt_employee_pii, rget_decStep_ne _ _ _ _ h3, rget_decStep_ne _ _ _ _ h2,
    rget_decStep_ne _ _ _ _ h1]

theorem rget_encrypt_employee_pii_other (key : Nat) (r : List (String × PyVal))
    (g : String) (h1 : ¬ "ni_number" = g) (h2 : ¬ "pensionable_salary" = g)
    (h3 : ¬ "date_of_birth" = g) :
    rget (encrypt_employee_pii key r) g = rget r g := by
  rw [encrypt_employee_pii, rget_encStepStr_ne _ _ _ _ h3, rget_encStepStr_ne _ _ _ _ h2,
    rget_encStepRaw_ne _ _ _ _ h1]

theorem rget_decrypt_employee_pii_ni (key : Nat) (r : List (String × PyVal)) :
    rget (decrypt_employee_pii key r) "ni_number" = dval key (rget r "ni_number") := by
  rw [decrypt_employee_pii, rget_decStep_ne _ _ _ _ (by decide),
    rget_decStep_ne _ _ _ _ (by decide), rget_decStep_same]

theorem rget_decrypt_employee_pii_sal (key : Nat) (r : List (String × PyVal)) :
    rget (decrypt_employee_pii key r) "pensionable_salary" =
      dval key (rget r "pensionable_salary") := by
  rw [decrypt_employee_pii, rget_decStep_ne _ _ _ _ (by decide), rget_decStep_same,
    rget_decStep_ne _ _ _ _ (by decide)]

theorem rget_decrypt_employee_pii_dob (key : Nat) (r : List (String × PyVal)) :
    rget (decrypt_employee_pii key r) "date_of_birth" =
      dval key (rget r "date_of_birth") := by
  rw [decrypt_employee_pii, rget_decStep_same, rget_decStep_ne _ _ _ _ (by decide),
    rget_decStep_ne _ _ _ _ (by decide)]

theorem rget_encrypt_employee_pii_ni (key : Nat) (r : List (String × PyVal)) :
    rget (encrypt_employee_pii key r) "ni_number" = evalRaw key (rget r "ni_number") := by
  rw [encrypt_employee_pii, rget_encStepStr_ne _ _ _ _ (by decide),
    rget_encStepStr_ne _ _ _ _ (by decide), rget_encStepRaw_same]

theorem rget_encrypt_employee_pii_sal (key : Nat) (r : List (String × PyVal)) :
    rget (encrypt_employee_pii key r) "pensionable_salary" =
      evalStr key (rget r "pensionable_salary") := by
  rw [encrypt_employee_pii, rget_encStepStr_ne _ _ _ _ (by decide), rget_encStepStr_same,
    rget_encStepRaw_ne _ _ _ _ (by decide)]

theorem rget_encrypt_employee_pii_dob (key : Nat) (r : List (String × PyVal)) :
    rget (encrypt_employee_pii key r) "date_of_birth" =
      evalStr key (rget r "date_of_birth") := by
  rw [encrypt_employee_pii, rget_encStepStr_same, rget_encStepStr_ne _ _ _ _ (by decide),
    rget_encStepRaw_ne _ _ _ _ (by decide)]

theorem decStep_stable (key : Nat) (r : List (String × PyVal)) (f : String)
    (hnd : nodupRec r = true) (h : dval key (rget r f) = rget r f) :
    decStep key r f = r := by
  rw [decStep]
  by_cases ht : pyTruthy (rget r f) = true
  · rw [if_pos ht]
    have hov : optVal (decrypt key (rget r f)) = rget r f := by
      have hh := h
      rw [dval, if_pos ht] at hh
      exact hh
    rw [hov, rset_rget_self r f (rget_present r f ht) hnd]
  · rw [if_neg ht]

theorem nodup_decrypt_employee_pii (key : Nat) (r : List (String × PyVal))
    (h : nodupRec r = true) : nodupRec (decrypt_employee_pii key r) = true :=
  nodupRec_of_keys_eq r _ (rkeys_decrypt_employee_pii key r).symm h

/-! ### Audit service (`AuditService.log_action` / `log_employee_update`)

Audit payload dictionaries are `List (List Char × Json)`; the persistence
write is an external collaborator, passed in as an `Except` outcome. -/

/-- The high-risk field names stripped from audit payloads. -/
def piiKeys : List (List Char) :=
  ["ni_number".toList, "date_of_birth".toList, "pensionable_salary".toList]

/-- The sanitizing dictionary comprehension of `log_employee_update`:
drop the high-risk keys, keep everything else in order. -/
def piiStrip (d : List (List Char × Json)) : List (List Char × Json) :=
  d.filter (fun kv => !(piiKeys.any (fun p => decide (kv.1 = p))))

/-- `if data:` guard around a sub-document of the details dictionary. -/
def consIfNonempty (name : List Char) (d : List (List Char × Json)) :
    List (List Char × Json) :=
  match d with
  | [] => []
  | kv :: kvs => [(name, Json.jobj (kv :: kvs))]

/-- The `details` dictionary assembled by `log_action` from `old_data`,
`new_data`, `metadata` and `record_id`, in that order, skipping falsy
parts. -/
def buildDetails (old new metadata : List (List Char × Json)) (record_id : List Char) :
    List (List Char × Json) :=
  consIfNonempty ("old_data".toList) old ++ consIfNonempty ("new_data".toList) new ++
    consIfNonempty ("metadata".toList) metadata ++
    (if record_id = [] then [] else [("record_id".toList, Json.jstr record_id)])

/-- The `try` block of `log_action`: build the details, encrypt them when
non-empty, perform the persistence write, return `True`. -/
def log_actionBody (key : Nat) (old new metadata : List (List Char × Json))
    (record_id : List Char) (persist : Except (List Char) Unit) :
    Except (List Char) Bool := do
  let details := buildDetails old new metadata record_id
  let _encrypted : Option (List Char) :=
    match details with
    | [] => none
    | kv :: kvs => encrypt_json key (kv :: kvs)
  persist
  pure true

/-- `AuditService.log_action`: the whole body is wrapped in
`try/except Exception`, which logs and returns `False` instead of
re-raising. -/
def log_action (key : Nat) (old new metadata : List (List Char × Json))
    (record_id : List Char) (persist : Except (List Char) Unit) : Bool :=
  match log_actionBody key old new metadata record_id persist with
  | .ok b => b
  | .error _ => false

/-- The detail ciphertext persisted by `log_employee_update`: sanitize
`old_data` and `new_data`, build the details with the employee id as
`record_id`, and encrypt. -/
def log_employee_update_details (key : Nat) (employee_id : List Char)
    (old new : List (List Char × Json)) : Option (List Char) :=
  match buildDetails (piiStrip old) (piiStrip new) [] employee_id with
  | [] => none
  | kv :: kvs => encrypt_json key (kv :: kvs)

/-- Python `d.get(k)` on a JSON object's member list. -/
def jget (d : List (List Char × Json)) (k : List Char) : Option Json :=
  (d.find? (fun kv => decide (kv.1 = k))).map (fun kv => kv.2)

theorem jget_piiStrip_banned : ∀ (d : List (List Char × Json)) (k : List Char),
    piiKeys.any (fun p => decide (k = p)) = true → jget (piiStrip d) k = none
  | [], k, _ => rfl
  | kv :: d', k, hk => by
      rw [piiStrip, List.filter_cons]
      by_cases hp : (!(piiKeys.any (fun p => decide (kv.1 = p)))) = true
      · rw [if_pos hp]
        have hne : ¬ kv.1 = k := by
          intro he
          rw [Bool.not_eq_true'] at hp
          rw [he] at hp
          rw [hp] at hk
          exact absurd hk (by decide)
        rw [jget, List.find?_cons_of_neg _ (by simp [hne])]
        exact jget_piiStrip_banned d' k hk
      · rw [if_neg hp]
        exact jget_piiStrip_banned d' k hk

theorem jget_piiStrip_kept : ∀ (d : List (List Char × Json)) (k : List Char),
    piiKeys.any (fun p => decide (k = p)) = false → jget (piiStrip d) k = jget d k
  | [], k, _ => rfl
  | kv :: d', k, hk => by
      have ih := jget_piiStrip_kept d' k hk
      rw [piiStrip, List.filter_cons]
      by_cases he : kv.1 = k
      · have hp : (!(piiKeys.any (fun p => decide (kv.1 = p)))) = true := by
          rw [he, hk]
          rfl
        rw [if_pos hp]
        rw [jget, jget, List.find?_cons_of_pos _ (by simp [he]),
          List.find?_cons_of_pos _ (by simp [he])]
      · by_cases hp : (!(piiKeys.any (fun p => decide (kv.1 = p)))) = true
        · rw [if_pos hp]
          rw [jget, jget, List.find?_cons_of_neg _ (by simp [he]),
            List.find?_cons_of_neg _ (by simp [he])]
          rw [piiStrip, jget, jget] at ih
          exact ih
        · rw [if_neg hp]
          rw [show jget (kv :: d') k = jget d' k from by
            rw [jget, jget, List.find?_cons_of_neg _ (by simp [he])]]
          rw [piiStrip] at ih
          exact ih

theorem nodupKeys_filter (p : List Char × Json → Bool) :
    ∀ d : List (List Char × Json), nodupKeys d = true → nodupKeys (d.filter p) = true
  | [], _ => rfl
  | kv :: d', h => by
      rw [nodupKeys, Bool.and_eq_true] at h
      rw [List.filter_cons]
      by_cases hp : p kv = true
      · rw [if_pos hp, nodupKeys, Bool.and_eq_true]
        refine ⟨?_, nodupKeys_filter p d' h.2⟩
        have hsub : ((d'.filter p).any fun kv2 => decide (kv2.1 = kv.1)) = false := by
          by_cases hany : ((d'.filter p).any fun kv2 => decide (kv2.1 = kv.1)) = true
          · exfalso
            obtain ⟨x, hx, hpx⟩ := List.any_eq_true.mp hany
            have hx' : x ∈ d' := List.mem_of_mem_filter hx
            have hd : d'.any (fun kv2 => decide (kv2.1 = kv.1)) = true :=
              List.any_eq_true.mpr ⟨x, hx', hpx⟩
            have hk := h.1
            rw [keyNotIn, hd] at hk
            exact absurd hk (by decide)
          · exact (Bool.not_eq_true _) ▸ hany
        rw [keyNotIn, hsub]
        rfl
      · rw [if_neg hp]
        exact nodupKeys_filter p d' h.2

theorem wfMembers_filter (p : List Char × Json → Bool) :
    ∀ d : List (List Char × Json), wfMembers d = true → wfMembers (d.filter p) = true
  | [], _ => rfl
  | kv :: d', h => by
      rw [wfMembers, Bool.and_eq_true] at h
      rw [List.filter_cons]
      by_cases hp : p kv = true
      · rw [if_pos hp, wfMembers, Bool.and_eq_true]
        exact ⟨h.1, wfMembers_filter p d' h.2⟩
      · rw [if_neg hp]
        exact wfMembers_filter p d' h.2

theorem buildDetails_ne_nil (o n md : List (List Char × Json)) (rid : List Char)
    (hr : ¬ rid = []) : buildDetails o n md rid ≠ [] := by
  rw [buildDetails, if_neg hr]
  intro h
  rw [List.append_eq_nil] at h
  exact absurd h.2 (by simp)

theorem wf_buildDetails (o n : List (List Char × Json)) (rid : List Char)
    (hr : ¬ rid = [])
    (ho : nodupKeys o = true) (hom : wfMembers o = true)
    (hn : nodupKeys n = true) (hnm : wfMembers n = true) :
    wf (.jobj (buildDetails o n [] rid)) = true := by
  rw [buildDetails, if_neg hr]
  have hwo : wf (Json.jobj o) = true := by
    rw [wf, Bool.and_eq_true]
    exact ⟨ho, hom⟩
  have hwn : wf (Json.jobj n) = true := by
    rw [wf, Bool.and_eq_true]
    exact ⟨hn, hnm⟩
  cases o with
  | nil =>
      cases n with
      | nil =>
          show wf (.jobj [("record_id".toList, Json.jstr rid)]) = true
          rfl
      | cons nv ns =>
          show wf (.jobj [("new_data".toList, Json.jobj (nv :: ns)),
            ("record_id".toList, Json.jstr rid)]) = true
          rw [wf, Bool.and_eq_true]
          refine ⟨rfl, ?_⟩
          simp only [wfMembers]
          rw [show wf (Json.jstr rid) = true from rfl, hwn]
          rfl
  | cons ov os =>
      cases n with
      | nil =>
          show wf (.jobj [("old_data".toList, Json.jobj (ov :: os)),
            ("record_id".toList, Json.jstr rid)]) = true
          rw [wf, Bool.and_eq_true]
          refine ⟨rfl, ?_⟩
          simp only [wfMembers]
          rw [show wf (Json.jstr rid) = true from rfl, hwo]
          rfl
      | cons nv ns =>
          show wf (.jobj [("old_data".toList, Json.jobj (ov :: os)),
            ("new_data".toList, Json.jobj (nv :: ns)),
            ("record_id".toList, Json.jstr rid)]) = true
          rw [wf, Bool.and_eq_true]
          refine ⟨rfl, ?_⟩
          simp only [wfMembers]
          rw [show wf (Json.jstr rid) = true from rfl, hwo, hwn]
          rfl

/-! ### Helper characterizations used by the claim theorems -/

theorem looksLikeBase64_length {s : List Char} (h : looksLikeBase64 s = true) :
    40 < s.length := by
  rw [looksLikeBase64, Bool.and_eq_true, decide_eq_true_eq] at h
  exact h.2

theorem decrypt_gate_fail (key : Nat) (s : List Char)
    (hlooks : looksLikeBase64 s = true) (hfail : tryDecryptStr key s = none) :
    decrypt key (.vstr s) = some s := by
  have hlen := looksLikeBase64_length hlooks
  have hne : ¬ s = [] := by
    intro h
    rw [h] at hlen
    simp at hlen
  simp only [decrypt]
  rw [if_neg hne]
  rw [if_neg (by
    push_neg
    refine ⟨by omega, ?_⟩
    rw [hlooks]
    simp)]
  rw [hfail]

theorem decrypt_no_gate (key : Nat) (s : List Char) (hne : s ≠ [])
    (h : tryDecryptStr key s = none ∨ looksLikeBase64 s = false) :
    decrypt key (.vstr s) = some s := by
  simp only [decrypt]
  rw [if_neg hne]
  by_cases hgate : s.length < 20 ∨ looksLikeBase64 s = false
  · rw [if_pos hgate]
  · rw [if_neg hgate]
    push_neg at hgate
    rcases h with h | h
    · rw [h]
    · exact absurd h hgate.2

theorem encrypt_truthy (key : Nat) (v : PyVal) (h : pyTruthy v = true) :
    encrypt key v = some (encTok key (pyStr v)) := by
  cases v with
  | vnone => exact absurd h (by decide)
  | vstr s =>
      have hs : ¬ s = [] := by
        intro he
        rw [he] at h
        exact absurd h (by decide)
      simp only [encrypt]
      rw [if_neg hs]
      rfl
  | vint n => rfl
  | vbool b => rfl

theorem pyStr_ne_nil (v : PyVal) (h : v ≠ .vstr []) : pyStr v ≠ [] := by
  cases v with
  | vnone => decide
  | vstr s =>
      intro he
      exact h (by rw [show pyStr (.vstr s) = s from rfl] at he; rw [he])
  | vint n =>
      show intStr n ≠ []
      rw [intStr]
      by_cases hn : n < 0
      · rw [if_pos hn]
        simp
      · rw [if_neg hn]
        exact natStr_ne_nil _
  | vbool b => cases b <;> decide

theorem encTok_ne_nil (key : Nat) (s : List Char) : encTok key s ≠ [] := by
  intro h
  have := encTok_length key s
  rw [h] at this
  simp only [List.length_nil] at this
  omega

theorem vstr_encTok_ne (key : Nat) (v : PyVal) :
    PyVal.vstr (encTok key (pyStr v)) ≠ v := by
  cases v with
  | vnone => simp
  | vint n => simp
  | vbool b => simp
  | vstr s =>
      intro h
      have h2 : encTok key (pyStr (.vstr s)) = s := by
        injection h
      have hlen := encTok_length key (pyStr (.vstr s))
      rw [h2] at hlen
      rw [show pyStr (.vstr s) = s from rfl] at hlen
      omega

theorem evalRaw_truthy (key : Nat) (v : PyVal) (h : pyTruthy v = true) :
    evalRaw key v = .vstr (encTok key (pyStr v)) := by
  rw [evalRaw, if_pos h, encrypt_truthy key v h]
  rfl

theorem evalStr_truthy (key : Nat) (v : PyVal) (h : pyTruthy v = true) :
    evalStr key v = .vstr (encTok key (pyStr v)) := by
  rw [evalStr, if_pos h]
  have hne : ¬ pyStr v = [] := by
    apply pyStr_ne_nil
    intro he
    rw [he] at h
    exact absurd h (by decide)
  simp only [encrypt]
  rw [if_neg hne]
  rfl

theorem dval_encTok (key : Nat) (s : List Char) :
    dval key (.vstr (encTok key s)) = .vstr s := by
  have htr : pyTruthy (.vstr (encTok key s)) = true := by
    show (!(encTok key s).isEmpty) = true
    cases h : encTok key s with
    | nil => exact absurd h (encTok_ne_nil key s)
    | cons c t => rfl
  rw [dval, if_pos htr, decrypt_encTok]
  rfl

/-- Whether an `Except` computation raised. -/
def isExceptError {ε α : Type} : Except ε α → Bool
  | .error _ => true
  | .ok _ => false

/-! ### The claims -/

/-- C1: for every non-empty scalar value `v`, `decrypt (encrypt v)` returns
exactly `str(v)`: the ciphertext produced by `encrypt` is always recognized
by the shape heuristic of `decrypt`, and authenticated decryption recovers
the stringified original. -/
theorem C1_scalar_roundtrip (key : Nat) (v : PyVal)
    (h1 : v ≠ .vnone) (h2 : v ≠ .vstr []) :
    decrypt key (optVal (encrypt key v)) = some (pyStr v) ∧
    (∀ t, encrypt key v = some t → looksLikeBase64 t = true) := by
  cases v with
  | vnone => exact absurd rfl h1
  | vstr s =>
      have hs : ¬ s = [] := by
        intro h
        exact h2 (by rw [h])
      constructor
      · rw [show encrypt key (.vstr s) = some (encTok key s) from by
            simp only [encrypt]; rw [if_neg hs]]
        exact decrypt_encTok key s
      · intro t ht
        rw [show encrypt key (.vstr s) = some (encTok key s) from by
            simp only [encrypt]; rw [if_neg hs]] at ht
        injection ht with ht
        rw [← ht]
        exact looksLikeBase64_encTok key s
  | vint n =>
      constructor
      · exact decrypt_encTok key (pyStr (.vint n))
      · intro t ht
        injection ht with ht
        rw [← ht]
        exact looksLikeBase64_encTok key _
  | vbool b =>
      constructor
      · exact decrypt_encTok key (pyStr (.vbool b))
      · intro t ht
        injection ht with ht
        rw [← ht]
        exact looksLikeBase64_encTok key _

/-- Witness for C1 at the string `"hi"` and key `0`. -/
theorem C1_witness :
    decrypt 0 (optVal (encrypt 0 (.vstr ['h', 'i']))) = some (pyStr (.vstr ['h', 'i'])) :=
  (C1_scalar_roundtrip 0 (.vstr ['h', 'i']) (by decide) (by decide)).1

/-- C2 counterexample: the 44-character string `AAAA…A` passes the
ciphertext-shape heuristic and fails authenticated decryption, yet
`decrypt_json` raises `ValueError` instead of returning `None`. -/
theorem C2_counterexample :
    looksLikeBase64 (List.replicate 44 'A') = true ∧
    tryDecryptStr 0 (List.replicate 44 'A') = none ∧
    isExceptError (decrypt_json 0 (List.replicate 44 'A')) = true :=
  ⟨by decide, by decide, by rfl⟩

/-- C2 (amended): a string that passes the shape heuristic, fails
authenticated decryption (so the scalar `decrypt` degrades to the input
unchanged), and does not parse as JSON makes `decrypt_json` raise
`ValueError`; the `None`-and-log degradation happens in the audit-listing
caller, not in `decrypt_json` itself. -/
theorem C2_decrypt_json_raises (key : Nat) (s : List Char) (hne : s ≠ [])
    (hlooks : looksLikeBase64 s = true) (hfail : tryDecryptStr key s = none)
    (hparse : loads s = none) :
    decrypt_json key s = .error ("Failed to decrypt JSON data".toList) := by
  rw [decrypt_json, if_neg hne, decrypt_gate_fail key s hlooks hfail]
  show (if s = [] then Except.ok none
        else
          match loads s with
          | some d => Except.ok (some d)
          | none => Except.error ("Failed to decrypt JSON data".toList)) =
      Except.error ("Failed to decrypt JSON data".toList)
  rw [if_neg hne, hparse]

/-- Witness for C2 at the 44-character string `AAAA…A` and key `0`. -/
theorem C2_witness :
    decrypt_json 0 (List.replicate 44 'A') =
      .error ("Failed to decrypt JSON data".toList) :=
  C2_decrypt_json_raises 0 (List.replicate 44 'A') (by decide) (by decide) (by decide)
    (by rfl)

/-- C3 counterexample: the empty document does not round-trip —
`encrypt_json` maps it to `None`, so `decrypt_json` returns `None`, not the
empty document. -/
theorem C3_counterexample :
    decrypt_jsonOpt 0 (encrypt_json 0 ([] : List (List Char × Json))) = .ok none ∧
    (Except.ok (none : Option Json) : Except (List Char) (Option Json)) ≠
      .ok (some (.jobj [])) := by
  constructor
  · rfl
  · intro h
    injection h with h1
    exact Option.noConfusion h1

/-- C3 (amended): for every non-empty JSON document with the dictionary
invariant (no duplicate keys, recursively), serializing, encrypting,
decrypting and re-parsing reproduces the document exactly; the empty
document instead degrades to `None` by the falsy-input guards. -/
theorem C3_json_roundtrip (key : Nat) (d : List (List Char × Json)) (hd : d ≠ [])
    (hwf : wf (.jobj d) = true) :
    decrypt_jsonOpt key (encrypt_json key d) = .ok (some (.jobj d)) :=
  decrypt_json_encrypt_json key d hd hwf

/-- Witness for C3 at the one-field document `a: 1` and key `0`. -/
theorem C3_witness :
    decrypt_jsonOpt 0 (encrypt_json 0 [(['a'], Json.jnum 1)]) =
      .ok (some (.jobj [(['a'], Json.jnum 1)])) :=
  C3_json_roundtrip 0 [(['a'], Json.jnum 1)] (List.cons_ne_nil _ _) (by decide)

/-- C4 counterexample: the empty string is not valid ciphertext, yet
`decrypt` returns `None` for it rather than the string unchanged. -/
theorem C4_counterexample :
    decrypt 0 (.vstr []) = none ∧ (none : Option (List Char)) ≠ some [] := by
  decide

/-- C4 (amended): every non-empty string that is not valid ciphertext under
the held key — it fails the shape heuristic, or passes it and fails
authenticated decryption — is returned unchanged by `decrypt`, which is a
total function: the failure is caught, never propagated. -/
theorem C4_decrypt_passthrough (key : Nat) (s : List Char) (hne : s ≠ [])
    (h : tryDecryptStr key s = none ∨ looksLikeBase64 s = false) :
    decrypt key (.vstr s) = some s :=
  decrypt_no_gate key s hne h

/-- Witness for C4 at the four-character legacy value `AB12` and key `0`. -/
theorem C4_witness : decrypt 0 (.vstr ['A', 'B', '1', '2']) = some ['A', 'B', '1', '2'] :=
  C4_decrypt_passthrough 0 ['A', 'B', '1', '2'] (by decide) (Or.inr (by decide))

set_option maxRecDepth 100000 in
/-- C5 counterexample: `decrypt_employee_pii` is not idempotent on every
record — a doubly-encrypted `ni_number` is peeled one layer per
application. -/
theorem C5_counterexample :
    decrypt_employee_pii 0 (decrypt_employee_pii 0
        [("ni_number", PyVal.vstr (encTok 0 (encTok 0 ['x'])))]) ≠
      decrypt_employee_pii 0 [("ni_number", PyVal.vstr (encTok 0 (encTok 0 ['x'])))] := by
  decide

/-- C5 (amended): `decrypt_employee_pii` is idempotent on every record with
the dictionary invariant whose policy fields are not multiply encrypted —
formally, whenever one more decryption step fixes each policy field's
once-decrypted value. -/
theorem C5_decrypt_employee_idem (key : Nat) (r : List (String × PyVal))
    (hnd : nodupRec r = true)
    (h1 : dval key (dval key (rget r "ni_number")) = dval key (rget r "ni_number"))
    (h2 : dval key (dval key (rget r "pensionable_salary")) =
      dval key (rget r "pensionable_salary"))
    (h3 : dval key (dval key (rget r "date_of_birth")) =
      dval key (rget r "date_of_birth")) :
    decrypt_employee_pii key (decrypt_employee_pii key r) =
      decrypt_employee_pii key r := by
  have hndR := nodup_decrypt_employee_pii key r hnd
  have s1 : decStep key (decrypt_employee_pii key r) "ni_number" =
      decrypt_employee_pii key r := by
    apply decStep_stable key _ _ hndR
    rw [rget_decrypt_employee_pii_ni]
    exact h1
  have s2 : decStep key (decrypt_employee_pii key r) "pensionable_salary" =
      decrypt_employee_pii key r := by
    apply decStep_stable key _ _ hndR
    rw [rget_decrypt_employee_pii_sal]
    exact h2
  have s3 : decStep key (decrypt_employee_pii key r) "date_of_birth" =
      decrypt_employee_pii key r := by
    apply decStep_stable key _ _ hndR
    rw [rget_decrypt_employee_pii_dob]
    exact h3
  show decStep key (decStep key (decStep key (decrypt_employee_pii key r) "ni_number")
      "pensionable_salary") "date_of_birth" = decrypt_employee_pii key r
  rw [s1, s2, s3]

set_option maxRecDepth 100000 in
/-- Witness for C5 at a record holding one singly-encrypted `ni_number`. -/
theorem C5_witness :
    decrypt_employee_pii 0 (decrypt_employee_pii 0
        [("ni_number", PyVal.vstr (encTok 0 ("AB123456C".toList)))]) =
      decrypt_employee_pii 0 [("ni_number", PyVal.vstr (encTok 0 ("AB123456C".toList)))] :=
  C5_decrypt_employee_idem 0 _ (by decide) (by decide) (by decide) (by decide)

/-- C6 counterexample: a record holding `pensionable_salary = 0` — present
and non-null — is left entirely unchanged by `encrypt_employee_pii`, because
the code guards on truthiness, not on non-nullness. -/
theorem C6_counterexample :
    encrypt_employee_pii 0 [("pensionable_salary", PyVal.vint 0)] =
      [("pensionable_salary", PyVal.vint 0)] ∧
    PyVal.vint 0 ≠ PyVal.vnone := by
  decide

/-- C6 (amended): for every record, each policy field — `ni_number`,
`pensionable_salary`, `date_of_birth` — present with a truthy (non-null,
non-empty, non-zero) value is replaced by the encryption of its stringified
value, which differs from the input and is ciphertext-shaped;
`decrypt_employee_pii` then restores it to exactly the original string. -/
theorem C6_encrypt_employee_fields (key : Nat) (r : List (String × PyVal)) :
    (pyTruthy (rget r "ni_number") = true →
      rget (encrypt_employee_pii key r) "ni_number" =
        .vstr (encTok key (pyStr (rget r "ni_number"))) ∧
      rget (encrypt_employee_pii key r) "ni_number" ≠ rget r "ni_number" ∧
      looksLikeBase64 (encTok key (pyStr (rget r "ni_number"))) = true ∧
      rget (decrypt_employee_pii key (encrypt_employee_pii key r)) "ni_number" =
        .vstr (pyStr (rget r "ni_number"))) ∧
    (pyTruthy (rget r "pensionable_salary") = true →
      rget (encrypt_employee_pii key r) "pensionable_salary" =
        .vstr (encTok key (pyStr (rget r "pensionable_salary"))) ∧
      rget (encrypt_employee_pii key r) "pensionable_salary" ≠
        rget r "pensionable_salary" ∧
      looksLikeBase64 (encTok key (pyStr (rget r "pensionable_salary"))) = true ∧
      rget (decrypt_employee_pii key (encrypt_employee_pii key r)) "pensionable_salary" =
        .vstr (pyStr (rget r "pensionable_salary"))) ∧
    (pyTruthy (rget r "date_of_birth") = true →
      rget (encrypt_employee_pii key r) "date_of_birth" =
        .vstr (encTok key (pyStr (rget r "date_of_birth"))) ∧
      rget (encrypt_employee_pii key r) "date_of_birth" ≠ rget r "date_of_birth" ∧
      looksLikeBase64 (encTok key (pyStr (rget r "date_of_birth"))) = true ∧
      rget (decrypt_employee_pii key (encrypt_employee_pii key r)) "date_of_birth" =
        .vstr (pyStr (rget r "date_of_birth"))) := by
  refine ⟨fun ht => ?_, fun ht => ?_, fun ht => ?_⟩
  · have h1 : rget (encrypt_employee_pii key r) "ni_number" =
        .vstr (encTok key (pyStr (rget r "ni_number"))) := by
      rw [rget_encrypt_employee_pii_ni, evalRaw_truthy _ _ ht]
    refine ⟨h1, ?_, looksLikeBase64_encTok key _, ?_⟩
    · rw [h1]
      exact vstr_encTok_ne key _
    · rw [rget_decrypt_employee_pii_ni, h1, dval_encTok]
  · have h1 : rget (encrypt_employee_pii key r) "pensionable_salary" =
        .vstr (encTok key (pyStr (rget r "pensionable_salary"))) := by
      rw [rget_encrypt_employee_pii_sal, evalStr_truthy _ _ ht]
    refine ⟨h1, ?_, looksLikeBase64_encTok key _, ?_⟩
    · rw [h1]
      exact vstr_encTok_ne key _
    · rw [rget_decrypt_employee_pii_sal, h1, dval_encTok]
  · have h1 : rget (encrypt_employee_pii key r) "date_of_birth" =
        .vstr (encTok key (pyStr (rget r "date_of_birth"))) := by
      rw [rget_encrypt_employee_pii_dob, evalStr_truthy _ _ ht]
    refine ⟨h1, ?_, looksLikeBase64_encTok key _, ?_⟩
    · rw [h1]
      exact vstr_encTok_ne key _
    · rw [rget_decrypt_employee_pii_dob, h1, dval_encTok]

set_option maxRecDepth 100000 in
/-- Witness for C6 at the spec's Employee scenario: identifier
`AB123456C`, salary `55000`, date of birth `1990-01-01`, key `0`. -/
theorem C6_witness :
    rget (decrypt_employee_pii 0 (encrypt_employee_pii 0
        [("ni_number", PyVal.vstr ("AB123456C".toList)),
         ("pensionable_salary", PyVal.vstr ("55000".toList)),
         ("date_of_birth", PyVal.vstr ("1990-01-01".toList))])) "ni_number" =
      .vstr (pyStr (rget
        [("ni_number", PyVal.vstr ("AB123456C".toList)),
         ("pensionable_salary", PyVal.vstr ("55000".toList)),
         ("date_of_birth", PyVal.vstr ("1990-01-01".toList))] "ni_number")) ∧
    rget (decrypt_employee_pii 0 (encrypt_employee_pii 0
        [("ni_number", PyVal.vstr ("AB123456C".toList)),
         ("pensionable_salary", PyVal.vstr ("55000".toList)),
         ("date_of_birth", PyVal.vstr ("1990-01-01".toList))])) "pensionable_salary" =
      .vstr (pyStr (rget
        [("ni_number", PyVal.vstr ("AB123456C".toList)),
         ("pensionable_salary", PyVal.vstr ("55000".toList)),
         ("date_of_birth", PyVal.vstr ("1990-01-01".toList))] "pensionable_salary")) ∧
    rget (decrypt_employee_pii 0 (encrypt_employee_pii 0
        [("ni_number", PyVal.vstr ("AB123456C".toList)),
         ("pensionable_salary", PyVal.vstr ("55000".toList)),
         ("date_of_birth", PyVal.vstr ("1990-01-01".toList))])) "date_of_birth" =
      .vstr (pyStr (rget
        [("ni_number", PyVal.vstr ("AB123456C".toList)),
         ("pensionable_salary", PyVal.vstr ("55000".toList)),
         ("date_of_birth", PyVal.vstr ("1990-01-01".toList))] "date_of_birth")) :=
  ⟨((C6_encrypt_employee_fields 0 _).1 (by decide)).2.2.2,
   ((C6_encrypt_employee_fields 0 _).2.1 (by decide)).2.2.2,
   ((C6_encrypt_employee_fields 0 _).2.2 (by decide)).2.2.2⟩

/-- C7: the persisted audit-detail document for an employee update is built
from `old_data`/`new_data` with the high-risk fields removed before the
merged document is encrypted via `encrypt_json`; every other field survives
inside the encrypted document and is recovered exactly by `decrypt_json`. -/
theorem C7_audit_update (key : Nat) (eid : List Char)
    (old new : List (List Char × Json)) (heid : ¬ eid = [])
    (ho : nodupKeys old = true) (hom : wfMembers old = true)
    (hn : nodupKeys new = true) (hnm : wfMembers new = true) :
    decrypt_jsonOpt key (log_employee_update_details key eid old new) =
      .ok (some (.jobj (buildDetails (piiStrip old) (piiStrip new) [] eid))) ∧
    jget (piiStrip old) ("ni_number".toList) = none ∧
    jget (piiStrip old) ("date_of_birth".toList) = none ∧
    jget (piiStrip old) ("pensionable_salary".toList) = none ∧
    (∀ k, piiKeys.any (fun p => decide (k = p)) = false →
      jget (piiStrip old) k = jget old k ∧ jget (piiStrip new) k = jget new k) := by
  have hso : nodupKeys (piiStrip old) = true := nodupKeys_filter _ old ho
  have hsom : wfMembers (piiStrip old) = true := wfMembers_filter _ old hom
  have hsn : nodupKeys (piiStrip new) = true := nodupKeys_filter _ new hn
  have hsnm : wfMembers (piiStrip new) = true := wfMembers_filter _ new hnm
  have hwf := wf_buildDetails (piiStrip old) (piiStrip new) eid heid hso hsom hsn hsnm
  have hnd := buildDetails_ne_nil (piiStrip old) (piiStrip new) [] eid heid
  refine ⟨?_, jget_piiStrip_banned old _ (by decide),
    jget_piiStrip_banned old _ (by decide), jget_piiStrip_banned old _ (by decide),
    fun k hk => ⟨jget_piiStrip_kept old k hk, jget_piiStrip_kept new k hk⟩⟩
  obtain ⟨kv0, kvs0, hdet⟩ : ∃ kv0 kvs0,
      buildDetails (piiStrip old) (piiStrip new) [] eid = kv0 :: kvs0 := by
    cases hcase : buildDetails (piiStrip old) (piiStrip new) [] eid with
    | nil => exact absurd hcase hnd
    | cons a b => exact ⟨a, b, rfl⟩
  rw [log_employee_update_details, hdet]
  show decrypt_jsonOpt key (encrypt_json key (kv0 :: kvs0)) =
      .ok (some (.jobj (kv0 :: kvs0)))
  exact decrypt_json_encrypt_json key (kv0 :: kvs0) (List.cons_ne_nil _ _)
    (hdet ▸ hwf)

/-- Witness for C7: an update whose `old_data` holds `ni_number` and
`full_name` — the identifier is stripped, the name survives and decrypts. -/
theorem C7_witness :
    jget (piiStrip [(("ni_number".toList), Json.jstr ("AB123456C".toList)),
        (("full_name".toList), Json.jstr ("Jane".toList))]) ("ni_number".toList) =
      none ∧
    decrypt_jsonOpt 0 (log_employee_update_details 0 ("e1".toList)
        [(("ni_number".toList), Json.jstr ("AB123456C".toList)),
         (("full_name".toList), Json.jstr ("Jane".toList))]
        [(("full_name".toList), Json.jstr ("Janet".toList))]) =
      .ok (some (.jobj (buildDetails
        (piiStrip [(("ni_number".toList), Json.jstr ("AB123456C".toList)),
          (("full_name".toList), Json.jstr ("Jane".toList))])
        (piiStrip [(("full_name".toList), Json.jstr ("Janet".toList))])
        [] ("e1".toList)))) :=
  ⟨(C7_audit_update 0 ("e1".toList)
      [(("ni_number".toList), Json.jstr ("AB123456C".toList)),
       (("full_name".toList), Json.jstr ("Jane".toList))]
      [(("full_name".toList), Json.jstr ("Janet".toList))]
      (by decide) (by decide) (by decide) (by decide) (by decide)).2.1,
   (C7_audit_update 0 ("e1".toList)
      [(("ni_number".toList), Json.jstr ("AB123456C".toList)),
       (("full_name".toList), Json.jstr ("Jane".toList))]
      [(("full_name".toList), Json.jstr ("Janet".toList))]
      (by decide) (by decide) (by decide) (by decide) (by decide)).1⟩

/-- C8: `encrypt_employee_pii` and `decrypt_employee_pii` are pure
functions of the record: every field outside the three policy fields maps
to its original value in the result, and the key list is preserved exactly,
so no field absent from the input appears in the output. -/
theorem C8_frame (key : Nat) (r : List (String × PyVal)) (g : String)
    (h1 : ¬ "ni_number" = g) (h2 : ¬ "pensionable_salary" = g)
    (h3 : ¬ "date_of_birth" = g) :
    rget (encrypt_employee_pii key r) g = rget r g ∧
    rget (decrypt_employee_pii key r) g = rget r g ∧
    rkeys (encrypt_employee_pii key r) = rkeys r ∧
    rkeys (decrypt_employee_pii key r) = rkeys r :=
  ⟨rget_encrypt_employee_pii_other key r g h1 h2 h3,
   rget_decrypt_employee_pii_other key r g h1 h2 h3,
   rkeys_encrypt_employee_pii key r, rkeys_decrypt_employee_pii key r⟩

/-- Witness for C8 at a record with a `full_name` field next to an
identifier. -/
theorem C8_witness :
    rget (encrypt_employee_pii 0 [("full_name", PyVal.vstr ("Jane".toList)),
        ("ni_number", PyVal.vstr ("AB123456C".toList))]) "full_name" =
      rget [("full_name", PyVal.vstr ("Jane".toList)),
        ("ni_number", PyVal.vstr ("AB123456C".toList))] "full_name" ∧
    rkeys (encrypt_employee_pii 0 [("full_name", PyVal.vstr ("Jane".toList)),
        ("ni_number", PyVal.vstr ("AB123456C".toList))]) =
      rkeys [("full_name", PyVal.vstr ("Jane".toList)),
        ("ni_number", PyVal.vstr ("AB123456C".toList))] :=
  ⟨(C8_frame 0 _ "full_name" (by decide) (by decide) (by decide)).1,
   (C8_frame 0 _ "full_name" (by decide) (by decide) (by decide)).2.2.1⟩

/-- C9: `AuditService.log_action` never propagates an exception — its whole
body is inside `try/except` — returning `True` when the persistence write
succeeds and `False` when it fails, leaving the audited primary action
unaffected. -/
theorem C9_log_action_no_raise (key : Nat) (old new md : List (List Char × Json))
    (rid : List Char) :
    log_action key old new md rid (.ok ()) = true ∧
    ∀ e, log_action key old new md rid (.error e) = false := by
  exact ⟨rfl, fun e => rfl⟩

/-- C10: `decrypt` is total over non-string, non-`None` inputs — an integer
or boolean read from the database is stringified and returned without any
decryption attempt and without raising. -/
theorem C10_decrypt_nonstring (key : Nat) :
    (∀ n : Int, decrypt key (.vint n) = some (pyStr (.vint n))) ∧
    (∀ b : Bool, decrypt key (.vbool b) = some (pyStr (.vbool b))) :=
  ⟨fun _ => rfl, fun _ => rfl⟩

end ZomiSaas
